import Mathlib

/-!
# ClientDB: a shallow embedding of `src/clientdb.js`

`ClientDB` is a thin wrapper around the browser's `localStorage` / `sessionStorage`:
one storage entry (keyed by the database name) holds the `JSON.stringify` text of an
object, every read re-parses that text, `insert` is a read / spread-merge / write.

The JavaScript built-ins the class relies on are embedded first (JSON values, property
order of ordinary objects, `JSON.stringify`, `JSON.parse`, truthiness, property reads,
the Web Storage areas), then the class itself, method by method, then the theorems.

Modelling conventions.
* A JavaScript string is a Lean `String` (a sequence of Unicode scalar values), so strings
  with lone surrogates are not represented.
* A JavaScript number is an `Int`; only the safe integers (absolute value at most
  `2^53 - 1`) are represented, `-0` is identified with `0`.
* Where `JSON.parse`, a property read or an object spread would need a value that is not
  represented, the embedding yields the fault `Fault.outsideModel` instead of guessing.
* The storage areas are unbounded: `setItem` never raises a quota error.
-/

namespace ClientDBSpec

/-! ## JSON values -/

/-- The values `JSON.parse` can produce. An object is the list of its own properties in
the order `OrdinaryOwnPropertyKeys` enumerates them. -/
inductive Json where
  | null
  | bool (b : Bool)
  | num (n : Int)
  | str (s : String)
  | arr (xs : List Json)
  | obj (ms : List (String × Json))

/-- The own properties of an object: key / value pairs in enumeration order. -/
abbrev Members := List (String × Json)

/-- Largest safe integer, `Number.MAX_SAFE_INTEGER = 2^53 - 1`. -/
def maxSafeInteger : Nat := 9007199254740991

/-! ## Decimal digits -/

/-- The decimal digit character of `d` (for `d < 10`). -/
def digitChar (d : Nat) : Char := Char.ofNat (48 + d)

/-- The value of a decimal digit character. -/
def digitValue (c : Char) : Nat := c.toNat - 48

/-- Most significant digit first, accumulating; the first argument bounds the recursion. -/
def natDigitsAux : Nat → Nat → List Char → List Char
  | 0, _, acc => acc
  | fuel + 1, n, acc =>
    if n < 10 then digitChar n :: acc
    else natDigitsAux fuel (n / 10) (digitChar (n % 10) :: acc)

/-- Decimal digits of a natural number, without leading zeros (`0` gives `"0"`). -/
def natDigits (n : Nat) : List Char := natDigitsAux (n + 1) n []

/-- Reads a digit sequence as a natural number. -/
def digitsToNat (cs : List Char) : Nat := cs.foldl (fun a c => 10 * a + digitValue c) 0

/-- `Number::toString` on a (safe) integer: an optional minus sign and the digits. -/
def numberToString (n : Int) : List Char :=
  if n < 0 then '-' :: natDigits n.natAbs else natDigits n.natAbs

/-! ## Property order of ordinary objects -/

/-- An array index is a canonical numeric string whose value is below `2^32 - 1`;
`arrayIndex` is its value, `none` for every other key. -/
def arrayIndex (k : String) : Option Nat :=
  match k.data with
  | [] => none
  | c :: cs =>
    if (c :: cs).all Char.isDigit && (c != '0' || cs.isEmpty) then
      (if digitsToNat (c :: cs) < 4294967295 then some (digitsToNat (c :: cs)) else none)
    else none

/-- Membership of a key among the own properties. -/
def hasOwn (k : String) : Members → Bool
  | [] => false
  | (k', _) :: t => if k' = k then true else hasOwn k t

/-- The value of own property `k`, if there is one. -/
def getOwn (k : String) : Members → Option Json
  | [] => none
  | (k', v) :: t => if k' = k then some v else getOwn k t

/-- Overwrites the value of the existing own property `k`; its position is kept. -/
def replaceOwn (k : String) (v : Json) : Members → Members
  | [] => []
  | (k', v') :: t => if k' = k then (k, v) :: t else (k', v') :: replaceOwn k v t

/-- Adds the new array-index property `k` (of index `i`) in ascending index order, before
the properties that are not array indices. -/
def insertIndexed (i : Nat) (k : String) (v : Json) : Members → Members
  | [] => [(k, v)]
  | (k', v') :: t =>
    match arrayIndex k' with
    | some j => if j < i then (k', v') :: insertIndexed i k v t else (k, v) :: (k', v') :: t
    | none => (k, v) :: (k', v') :: t

/-- The operation `CreateDataProperty(O, k, v)` on an ordinary object: an existing property
is overwritten in place, a new array index is placed in index order, any other new key is
appended. -/
def defineProp (ms : Members) (k : String) (v : Json) : Members :=
  if hasOwn k ms then replaceOwn k v ms
  else
    match arrayIndex k with
    | some i => insertIndexed i k v ms
    | none => ms ++ [(k, v)]

/-- The operation `CopyDataProperties(target, source)`: every own property of the source is
defined on the target, in the source's order. -/
def copyDataProperties (target source : Members) : Members :=
  source.foldl (fun acc p => defineProp acc p.1 p.2) target

/-- Keys of a property list, in order. -/
def keysOf (ms : Members) : List String := ms.map Prod.fst

/-- The order `OrdinaryOwnPropertyKeys` imposes on a key list: keys are pairwise distinct,
the array indices come first in ascending order, the other keys follow. -/
def ownKeyOrdered : List String → Bool
  | [] => true
  | k :: ks =>
    !(ks.contains k) && ownKeyOrdered ks &&
      (match arrayIndex k with
       | some i => ks.all (fun k' => match arrayIndex k' with
                                     | some j => decide (i < j)
                                     | none => true)
       | none => ks.all (fun k' => (arrayIndex k').isNone))

mutual
/-- A value is representable when it is the image of a JavaScript value: every number is a
safe integer and every object lists its keys in own-property order. -/
def Json.representable : Json → Bool
  | .null => true
  | .bool _ => true
  | .num n => decide (n.natAbs ≤ maxSafeInteger)
  | .str _ => true
  | .arr xs => representableList xs
  | .obj ms => ownKeyOrdered (ms.map Prod.fst) && representableMembers ms
/-- Every element is representable. -/
def representableList : List Json → Bool
  | [] => true
  | x :: xs => x.representable && representableList xs
/-- Every property value is representable. -/
def representableMembers : List (String × Json) → Bool
  | [] => true
  | (_, v) :: ms => v.representable && representableMembers ms
end

/-! ## JSON.stringify -/

/-- Lower-case hexadecimal digit of `d` (for `d < 16`). -/
def hexDigit (d : Nat) : Char := if d < 10 then Char.ofNat (48 + d) else Char.ofNat (87 + d)

/-- One code point of `QuoteJSONString`: the two-character escapes, a `\u00XX` escape for
the other control characters, the character itself otherwise. -/
def quoteChar (c : Char) : List Char :=
  if c = '"' then ['\\', '"']
  else if c = '\\' then ['\\', '\\']
  else if c = '\x08' then ['\\', 'b']
  else if c = '\x0c' then ['\\', 'f']
  else if c = '\n' then ['\\', 'n']
  else if c = '\r' then ['\\', 'r']
  else if c = '\t' then ['\\', 't']
  else if c.toNat < 32 then ['\\', 'u', '0', '0', hexDigit (c.toNat / 16), hexDigit (c.toNat % 16)]
  else [c]

/-- The quoted characters of a string followed by the closing quote. -/
def quoteBody : List Char → List Char
  | [] => ['"']
  | c :: cs => quoteChar c ++ quoteBody cs

/-- The lexical units of a JSON text. -/
inductive Token where
  | lbrace
  | rbrace
  | lbrack
  | rbrack
  | colon
  | comma
  | str (s : String)
  | num (n : Int)
  | litTrue
  | litFalse
  | litNull

/-- The text of one token, as `JSON.stringify` writes it. -/
def Token.render : Token → List Char
  | .lbrace => ['\x7b']
  | .rbrace => ['\x7d']
  | .lbrack => ['[']
  | .rbrack => [']']
  | .colon => [':']
  | .comma => [',']
  | .str s => '"' :: quoteBody s.data
  | .num n => numberToString n
  | .litTrue => ['t', 'r', 'u', 'e']
  | .litFalse => ['f', 'a', 'l', 's', 'e']
  | .litNull => ['n', 'u', 'l', 'l']

/-- The text of a token sequence, without any white space. -/
def renderTokens : List Token → List Char
  | [] => []
  | t :: ts => t.render ++ renderTokens ts

mutual
/-- The token sequence `SerializeJSONProperty` writes for a value (no indentation, no
replacer): elements and members are separated by a comma, a member is key, colon, value. -/
def Json.tokens : Json → List Token
  | .null => [.litNull]
  | .bool true => [.litTrue]
  | .bool false => [.litFalse]
  | .num n => [.num n]
  | .str s => [.str s]
  | .arr xs => .lbrack :: elementTokens xs
  | .obj ms => .lbrace :: memberTokens ms
/-- Tokens of the elements of an array and its closing bracket. -/
def elementTokens : List Json → List Token
  | [] => [.rbrack]
  | x :: xs => x.tokens ++ elementTail xs
/-- Tokens after an element: a comma before each further element, then the bracket. -/
def elementTail : List Json → List Token
  | [] => [.rbrack]
  | x :: xs => .comma :: (x.tokens ++ elementTail xs)
/-- Tokens of the members of an object and its closing brace. -/
def memberTokens : List (String × Json) → List Token
  | [] => [.rbrace]
  | (k, v) :: ms => .str k :: .colon :: (v.tokens ++ memberTail ms)
/-- Tokens after a member: a comma before each further member, then the brace. -/
def memberTail : List (String × Json) → List Token
  | [] => [.rbrace]
  | (k, v) :: ms => .comma :: .str k :: .colon :: (v.tokens ++ memberTail ms)
end

/-- The function `JSON.stringify(value)` on a JSON value. -/
def JSON.stringify (v : Json) : String := String.mk (renderTokens v.tokens)

/-! ## JSON.parse -/

/-- The ways a step of the embedding can fail: `syntaxError` is the `SyntaxError`
that `JSON.parse` throws, `typeError` the `TypeError` of a property read on `null`;
`outsideModel` marks a result that the embedding does not represent (a number that is not
a safe integer, a string with a lone surrogate). -/
inductive Fault where
  | syntaxError
  | typeError
  | outsideModel
  deriving DecidableEq, Repr

/-- JSON white space: space, tab, line feed, carriage return. -/
def isJsonWhitespace (c : Char) : Bool := c = ' ' || c = '\t' || c = '\n' || c = '\r'

/-- Value of a hexadecimal digit, either case. -/
def hexValue (c : Char) : Option Nat :=
  if c.isDigit then some (c.toNat - 48)
  else if 97 ≤ c.toNat && c.toNat ≤ 102 then some (c.toNat - 87)
  else if 65 ≤ c.toNat && c.toNat ≤ 70 then some (c.toNat - 55)
  else none

/-- Value of four hexadecimal digits. -/
def hex4 (a b c d : Char) : Option Nat :=
  match hexValue a, hexValue b, hexValue c, hexValue d with
  | some x, some y, some z, some w => some (((x * 16 + y) * 16 + z) * 16 + w)
  | _, _, _, _ => none

/-- The character of a single-character escape `\c`. -/
def simpleEscape (c : Char) : Option Char :=
  if c = '"' then some '"'
  else if c = '\\' then some '\\'
  else if c = '/' then some '/'
  else if c = 'b' then some '\x08'
  else if c = 'f' then some '\x0c'
  else if c = 'n' then some '\n'
  else if c = 'r' then some '\r'
  else if c = 't' then some '\t'
  else none

/-- Puts a character in front of a successfully read string. -/
def consChar (c : Char) : Except Fault (List Char × List Char) → Except Fault (List Char × List Char)
  | .ok (s, rest) => .ok (c :: s, rest)
  | .error f => .error f

/-- Reads a string after its opening quote, up to and including the closing quote; gives
the characters of the string and the rest of the input. A raw control character, an
unknown escape or a missing quote is a syntax error; a `\u` escape of a surrogate code
unit is outside the model. -/
def lexString : List Char → Except Fault (List Char × List Char)
  | [] => .error .syntaxError
  | c :: rest =>
    if c = '"' then .ok ([], rest)
    else if c = '\\' then
      match rest with
      | [] => .error .syntaxError
      | e :: rest1 =>
        if e = 'u' then
          match rest1 with
          | h1 :: h2 :: h3 :: h4 :: rest2 =>
            match hex4 h1 h2 h3 h4 with
            | none => .error .syntaxError
            | some u =>
              if 55296 ≤ u && u ≤ 57343 then .error .outsideModel
              else consChar (Char.ofNat u) (lexString rest2)
          | _ => .error .syntaxError
        else
          match simpleEscape e with
          | some ch => consChar ch (lexString rest1)
          | none => .error .syntaxError
    else if c.toNat < 32 then .error .syntaxError
    else consChar c (lexString rest)

/-- Reads a number token at the start of the input: an optional minus sign, then `0` or a
digit sequence without a leading zero. Digits followed by `.`, `e` or `E` (a fraction or
exponent part, well formed or not), or an integer that is not safe, are outside the
model. -/
def lexNumber (cs : List Char) : Except Fault (Int × List Char) :=
  let negative := cs.head? = some '-'
  let body := if negative then cs.tail else cs
  let digits := body.takeWhile Char.isDigit
  let rest := body.dropWhile Char.isDigit
  match digits with
  | [] => .error .syntaxError
  | d :: ds =>
    if d = '0' && !ds.isEmpty then .error .syntaxError
    else if rest.head? = some '.' || rest.head? = some 'e' || rest.head? = some 'E' then
      .error .outsideModel
    else if digitsToNat (d :: ds) > maxSafeInteger then .error .outsideModel
    else .ok (if negative then - (digitsToNat (d :: ds) : Int) else (digitsToNat (d :: ds) : Int), rest)

/-- Puts a token in front of a successfully read token sequence. -/
def consToken (t : Token) : Except Fault (List Token) → Except Fault (List Token)
  | .ok ts => .ok (t :: ts)
  | .error f => .error f

/-- Splits a text into tokens, skipping white space between them. The first argument
bounds the number of steps; one more than the length of the text is always enough. -/
def lexTokens : Nat → List Char → Except Fault (List Token)
  | 0, _ => .error .syntaxError
  | _ + 1, [] => .ok []
  | fuel + 1, c :: cs =>
    if isJsonWhitespace c then lexTokens fuel cs
    else if c = '\x7b' then consToken .lbrace (lexTokens fuel cs)
    else if c = '\x7d' then consToken .rbrace (lexTokens fuel cs)
    else if c = '[' then consToken .lbrack (lexTokens fuel cs)
    else if c = ']' then consToken .rbrack (lexTokens fuel cs)
    else if c = ':' then consToken .colon (lexTokens fuel cs)
    else if c = ',' then consToken .comma (lexTokens fuel cs)
    else if c = '"' then
      match lexString cs with
      | .error f => .error f
      | .ok (s, rest) => consToken (.str (String.mk s)) (lexTokens fuel rest)
    else if c = '-' || c.isDigit then
      match lexNumber (c :: cs) with
      | .error f => .error f
      | .ok (n, rest) => consToken (.num n) (lexTokens fuel rest)
    else if c = 't' && cs.take 3 = ['r', 'u', 'e'] then
      consToken .litTrue (lexTokens fuel (cs.drop 3))
    else if c = 'f' && cs.take 4 = ['a', 'l', 's', 'e'] then
      consToken .litFalse (lexTokens fuel (cs.drop 4))
    else if c = 'n' && cs.take 3 = ['u', 'l', 'l'] then
      consToken .litNull (lexTokens fuel (cs.drop 3))
    else .error .syntaxError

/-- The token sequence starts with a closing bracket. -/
def startsWithRbrack : List Token → Bool
  | .rbrack :: _ => true
  | _ => false

/-- The token sequence starts with a closing brace. -/
def startsWithRbrace : List Token → Bool
  | .rbrace :: _ => true
  | _ => false

mutual
/-- Parses one value at the start of the token sequence; gives the value and the
remaining tokens. The first argument bounds the nesting and the number of steps. -/
def parseValue : Nat → List Token → Option (Json × List Token)
  | 0, _ => none
  | _ + 1, [] => none
  | fuel + 1, t :: ts =>
    match t with
    | .litNull => some (.null, ts)
    | .litTrue => some (.bool true, ts)
    | .litFalse => some (.bool false, ts)
    | .num n => some (.num n, ts)
    | .str s => some (.str s, ts)
    | .lbrack =>
      if startsWithRbrack ts then some (.arr [], ts.tail)
      else
        match parseElements fuel ts with
        | some (xs, rest) => some (.arr xs, rest)
        | none => none
    | .lbrace =>
      if startsWithRbrace ts then some (.obj [], ts.tail)
      else
        match parseMembers fuel ts with
        | some (ms, rest) => some (.obj (copyDataProperties [] ms), rest)
        | none => none
    | _ => none
/-- Parses `value (, value)* ]`. -/
def parseElements : Nat → List Token → Option (List Json × List Token)
  | 0, _ => none
  | fuel + 1, ts =>
    match parseValue fuel ts with
    | none => none
    | some (v, rest) =>
      match rest with
      | .rbrack :: rest1 => some ([v], rest1)
      | .comma :: rest1 =>
        match parseElements fuel rest1 with
        | some (vs, rest2) => some (v :: vs, rest2)
        | none => none
      | _ => none
/-- Parses `string : value (, string : value)* }`; the members are given in text order,
repeated keys included. -/
def parseMembers : Nat → List Token → Option (List (String × Json) × List Token)
  | 0, _ => none
  | fuel + 1, ts =>
    match ts with
    | .str k :: .colon :: ts1 =>
      match parseValue fuel ts1 with
      | none => none
      | some (v, rest) =>
        match rest with
        | .rbrace :: rest1 => some ([(k, v)], rest1)
        | .comma :: rest1 =>
          match parseMembers fuel rest1 with
          | some (ms, rest2) => some ((k, v) :: ms, rest2)
          | none => none
        | _ => none
    | _ => none
end

/-- The result of evaluating an expression or a call: a value, or a thrown fault. -/
inductive Completion (α : Type) where
  | normal (a : α)
  | throw (f : Fault)

/-- The function `JSON.parse(text)` (no reviver): the text is split into tokens and one
value must span all of them; each member of an object is defined in text order, so a
repeated key keeps its first position and its last value. -/
def JSON.parse (text : String) : Completion Json :=
  match lexTokens (text.length + 1) text.data with
  | .error f => .throw f
  | .ok ts =>
    match parseValue (ts.length + 1) ts with
    | some (v, []) => .normal v
    | _ => .throw .syntaxError

/-! ## Truthiness, property reads, object spread -/

/-- The operation `ToBoolean` on a JSON value: `null`, `false`, `0` and the empty string are
falsy, every array and object is truthy. -/
def Json.truthy : Json → Bool
  | .null => false
  | .bool b => b
  | .num n => n != 0
  | .str s => s != ""
  | .arr _ => true
  | .obj _ => true

/-- What a property read `data[key]` can yield: `undefined`, a JSON value, a one-unit
string holding a surrogate code unit, or a property inherited from a built-in prototype
(a built-in function, or the prototype object for `__proto__`). -/
inductive JsRef where
  | undefined
  | value (v : Json)
  | surrogate (unit : Nat)
  | inherited (key : String)

/-- String-keyed properties of `Object.prototype` (ECMA-262, Annex B included). -/
def objectPrototypeKeys : List String :=
  ["constructor", "hasOwnProperty", "isPrototypeOf", "propertyIsEnumerable",
   "toLocaleString", "toString", "valueOf", "__proto__", "__defineGetter__",
   "__defineSetter__", "__lookupGetter__", "__lookupSetter__"]

/-- String-keyed properties of `Array.prototype` (ECMA-262, 2023 edition). -/
def arrayPrototypeKeys : List String :=
  ["at", "concat", "constructor", "copyWithin", "entries", "every", "fill", "filter",
   "find", "findIndex", "findLast", "findLastIndex", "flat", "flatMap", "forEach",
   "includes", "indexOf", "join", "keys", "lastIndexOf", "map", "pop", "push", "reduce",
   "reduceRight", "reverse", "shift", "slice", "some", "sort", "splice", "toLocaleString",
   "toReversed", "toSorted", "toSpliced", "toString", "unshift", "values", "with"]

/-- String-keyed properties of `String.prototype` (ECMA-262, 2023 edition, Annex B
included). -/
def stringPrototypeKeys : List String :=
  ["at", "charAt", "charCodeAt", "codePointAt", "concat", "constructor", "endsWith",
   "includes", "indexOf", "isWellFormed", "lastIndexOf", "localeCompare", "match",
   "matchAll", "normalize", "padEnd", "padStart", "repeat", "replace", "replaceAll",
   "search", "slice", "split", "startsWith", "substring", "toLocaleLowerCase",
   "toLocaleUpperCase", "toLowerCase", "toString", "toUpperCase", "toWellFormed", "trim",
   "trimEnd", "trimStart", "valueOf", "substr", "anchor", "big", "blink", "bold", "fixed",
   "fontcolor", "fontsize", "italics", "link", "small", "strike", "sub", "sup", "trimLeft",
   "trimRight"]

/-- String-keyed properties of `Number.prototype`. -/
def numberPrototypeKeys : List String :=
  ["constructor", "toExponential", "toFixed", "toLocaleString", "toPrecision", "toString",
   "valueOf"]

/-- String-keyed properties of `Boolean.prototype`. -/
def booleanPrototypeKeys : List String := ["constructor", "toString", "valueOf"]

/-- A property that is not an own property: found on the given prototype or on
`Object.prototype`, or `undefined`. -/
def inheritedRead (protoKeys : List String) (key : String) : JsRef :=
  if protoKeys.contains key || objectPrototypeKeys.contains key then .inherited key
  else .undefined

/-- UTF-16 code units of a character sequence. -/
def utf16Units : List Char → List Nat
  | [] => []
  | c :: cs =>
    if c.toNat < 65536 then c.toNat :: utf16Units cs
    else (55296 + (c.toNat - 65536) / 1024) :: (56320 + (c.toNat - 65536) % 1024) :: utf16Units cs

/-- The expression `data[key]` for a string key: own properties first (members of an
object, elements and `length` of an array, code units and `length` of a string), then the
prototype chain. Reading a property of `null` throws a `TypeError`. -/
def readProperty (data : Json) (key : String) : Completion JsRef :=
  match data with
  | .null => .throw .typeError
  | .bool _ => .normal (inheritedRead booleanPrototypeKeys key)
  | .num _ => .normal (inheritedRead numberPrototypeKeys key)
  | .str s =>
    if key = "length" then .normal (.value (.num (utf16Units s.data).length))
    else
      match arrayIndex key with
      | some i =>
        match (utf16Units s.data).get? i with
        | some u =>
          if 55296 ≤ u && u ≤ 57343 then .normal (.surrogate u)
          else .normal (.value (.str (String.singleton (Char.ofNat u))))
        | none => .normal (inheritedRead stringPrototypeKeys key)
      | none => .normal (inheritedRead stringPrototypeKeys key)
  | .arr xs =>
    if key = "length" then .normal (.value (.num xs.length))
    else
      match arrayIndex key with
      | some i =>
        match xs.get? i with
        | some x => .normal (.value x)
        | none => .normal (inheritedRead arrayPrototypeKeys key)
      | none => .normal (inheritedRead arrayPrototypeKeys key)
  | .obj ms =>
    match getOwn key ms with
    | some v => .normal (.value v)
    | none => .normal (inheritedRead [] key)

/-- Pairs each element with its index key, counting from `i`. -/
def indexedFrom : Nat → List Json → Members
  | _, [] => []
  | i, x :: xs => (String.mk (natDigits i), x) :: indexedFrom (i + 1) xs

/-- The own enumerable string-keyed properties a spread `...source` copies: the members of
an object, the elements of an array, the code units of a string, nothing for `null`, a
boolean or a number. A string with a character beyond the basic plane would give lone
surrogates, which is outside the model: the real spread succeeds there, and the answer
`outsideModel` describes neither its result nor what is done with it. -/
def ownEnumerable : Json → Except Fault Members
  | .null => .ok []
  | .bool _ => .ok []
  | .num _ => .ok []
  | .str s =>
    if s.data.all (fun c => c.toNat < 65536) then
      .ok (indexedFrom 0 (s.data.map (fun c => Json.str (String.singleton c))))
    else .error .outsideModel
  | .arr xs => .ok (indexedFrom 0 xs)
  | .obj ms => .ok ms

/-! ## Web Storage -/

/-- A storage area: the value stored under each key, if any. -/
abbrev Storage := String → Option String

/-- The method `Storage.getItem(key)`: the stored value, `none` standing for `null`. -/
def Storage.getItem (s : Storage) (key : String) : Option String := s key

/-- The method `Storage.setItem(key, value)`. -/
def Storage.setItem (s : Storage) (key value : String) : Storage :=
  fun k => if k = key then some value else s k

/-- The method `Storage.removeItem(key)`. -/
def Storage.removeItem (s : Storage) (key : String) : Storage :=
  fun k => if k = key then none else s k

/-- The two storage areas of the global `window` object. -/
structure Window where
  localStorage : Storage
  sessionStorage : Storage

/-- The outcome of a call: how it completed and the storage state it left. -/
structure Outcome (α : Type) where
  completion : Completion α
  window : Window

/-! ## The class -/

/-- An instance of `ClientDB`: the fields the constructor sets. The type selector is kept
as the string that was passed, recognised or not. -/
structure ClientDB where
  dbName : String
  type : String

namespace ClientDB

/-- Method `getStoredData`: reads local storage when the type is `"local"` and session
storage for every other type; a missing or empty entry gives `null`, any other text is
parsed. -/
def getStoredData (self : ClientDB) (w : Window) : Outcome Json :=
  let rawData :=
    if self.type = "local" then w.localStorage.getItem self.dbName
    else w.sessionStorage.getItem self.dbName
  match rawData with
  | some text => if text ≠ "" then ⟨JSON.parse text, w⟩ else ⟨.normal .null, w⟩
  | none => ⟨.normal .null, w⟩

/-- Method `setData`: writes the serialized data to the storage area the type selects;
nothing is written for an unrecognised type. -/
def setData (self : ClientDB) (data : Json) (w : Window) : Outcome Unit :=
  let jsonData := JSON.stringify data
  if self.type = "local" then
    ⟨.normal (), { w with localStorage := w.localStorage.setItem self.dbName jsonData }⟩
  else if self.type = "session" then
    ⟨.normal (), { w with sessionStorage := w.sessionStorage.setItem self.dbName jsonData }⟩
  else ⟨.normal (), w⟩

/-- Method `clearStorage`: removes the entry from the storage area the type selects. -/
def clearStorage (self : ClientDB) (w : Window) : Outcome Unit :=
  if self.type = "local" then
    ⟨.normal (), { w with localStorage := w.localStorage.removeItem self.dbName }⟩
  else if self.type = "session" then
    ⟨.normal (), { w with sessionStorage := w.sessionStorage.removeItem self.dbName }⟩
  else ⟨.normal (), w⟩

/-- Method `isDatabaseExists`: the truthiness of the stored data. -/
def isDatabaseExists (self : ClientDB) (w : Window) : Outcome Bool :=
  match self.getStoredData w with
  | ⟨.normal storedData, w1⟩ => ⟨.normal storedData.truthy, w1⟩
  | ⟨.throw f, w1⟩ => ⟨.throw f, w1⟩

/-- Method `createDatabase`: stores the empty object. -/
def createDatabase (self : ClientDB) (w : Window) : Outcome Unit :=
  self.setData (.obj []) w

/-- Method `initializeDatabase`: creates the database unless it exists. -/
def initializeDatabase (self : ClientDB) (w : Window) : Outcome Unit :=
  match self.isDatabaseExists w with
  | ⟨.normal isThere, w1⟩ => if !isThere then self.createDatabase w1 else ⟨.normal (), w1⟩
  | ⟨.throw f, w1⟩ => ⟨.throw f, w1⟩

/-- The constructor `new ClientDB(name, { type })`: sets the two fields and initializes the
database. -/
def constructor (name type : String) (w : Window) : Outcome ClientDB :=
  let self : ClientDB := ⟨name, type⟩
  match self.initializeDatabase w with
  | ⟨.normal _, w1⟩ => ⟨.normal self, w1⟩
  | ⟨.throw f, w1⟩ => ⟨.throw f, w1⟩

/-- Method `getDb`. -/
def getDb (self : ClientDB) (w : Window) : Outcome Json :=
  self.getStoredData w

/-- Method `query`: `data ? data[key] : undefined`. -/
def query (self : ClientDB) (key : String) (w : Window) : Outcome JsRef :=
  match self.getDb w with
  | ⟨.normal data, w1⟩ =>
    if data.truthy then ⟨readProperty data key, w1⟩ else ⟨.normal .undefined, w1⟩
  | ⟨.throw f, w1⟩ => ⟨.throw f, w1⟩

/-- Method `insert`: the existing data and then the argument are spread into a fresh
object, which is stored. When a spread is outside the model (a string with a character
beyond the basic plane) the outcome is the fault `outsideModel`: the real call completes and
writes there, and the embedding describes neither, so statements about what `insert` stores
are made for arguments with `Json.spreadInModel`. -/
def insert (self : ClientDB) (data : Json) (w : Window) : Outcome Unit :=
  match self.getDb w with
  | ⟨.normal existingData, w1⟩ =>
    match ownEnumerable existingData with
    | .ok existing =>
      match ownEnumerable data with
      | .ok patch =>
        let newData := Json.obj (copyDataProperties (copyDataProperties [] existing) patch)
        self.setData newData w1
      | .error f => ⟨.throw f, w1⟩
    | .error f => ⟨.throw f, w1⟩
  | ⟨.throw f, w1⟩ => ⟨.throw f, w1⟩

/-- Method `delete`. -/
def delete (self : ClientDB) (w : Window) : Outcome Unit :=
  self.clearStorage w

end ClientDB

/-! ## Vocabulary of the proofs and example states -/

/-- A text can follow a number when it does not continue the number token. -/
def endsNumber (rest : List Char) : Bool :=
  match rest with
  | [] => true
  | c :: _ => !c.isDigit && c != '.' && c != 'e' && c != 'E'

/-- The token sequence starts with a number token. -/
def startsWithNum : List Token → Bool
  | .num _ :: _ => true
  | _ => false

/-- Token sequences whose text reads back as the same tokens: every number is a safe
integer and is not directly followed by another number. -/
def lexable : List Token → Bool
  | [] => true
  | t :: ts =>
    (match t with
     | .num n => decide (n.natAbs ≤ maxSafeInteger) && !startsWithNum ts
     | _ => true) && lexable ts

/-- Key `a` may precede key `b` among the own properties of an object. -/
def keyBefore (a b : String) : Prop :=
  a ≠ b ∧
    match arrayIndex a, arrayIndex b with
    | some i, some j => i < j
    | none, some _ => False
    | _, _ => True

/-- Reading back one value, as a property of the value. -/
def ParsesBack (v : Json) : Prop :=
  ∀ fuel rest, v.tokens.length ≤ fuel → parseValue fuel (v.tokens ++ rest) = some (v, rest)

/-- The text the instance reads: the entry under `dbName` in local storage when the type
is `"local"`, in session storage otherwise (the `rawData` of `getStoredData`). -/
def ClientDB.storedText (self : ClientDB) (w : Window) : Option String :=
  if self.type = "local" then w.localStorage.getItem self.dbName
  else w.sessionStorage.getItem self.dbName

/-- The merge of the specification, on lookup functions: `merge X Y` has `Y`'s value on every
key of `Y` and `X`'s value on every other key. -/
def mergeSpec (X Y : String → Option Json) : String → Option Json :=
  fun k => match Y k with
    | some v => some v
    | none => X k

/-- A window whose storage areas are empty. -/
def emptyWindow : Window := ⟨fun _ => none, fun _ => none⟩

/-- A window whose local storage holds `text` under the key `"db"` and nothing else. -/
def localWindow (text : String) : Window :=
  ⟨fun k => if k = "db" then some text else none, fun _ => none⟩

/-- A local-storage instance named `"db"`. -/
def localDb : ClientDB := ⟨"db", "local"⟩

/-- A window whose session storage holds `text` under the key `"db"` and nothing else. -/
def sessionWindow (text : String) : Window :=
  ⟨fun _ => none, fun k => if k = "db" then some text else none⟩

/-- The state invariant of the slot the instance reads: no entry, or the serialization of a
mapping object. -/
def ClientDB.SlotInvariant (self : ClientDB) (w : Window) : Prop :=
  self.storedText w = none ∨
    ∃ M : Members, (Json.obj M).representable = true ∧
      self.storedText w = some (JSON.stringify (.obj M))

/-- The frame of a write made through the instance, from window `w` to window `w'`: for
type `"local"` all of session storage and every local entry under another key is as before;
for type `"session"` all of local storage and every session entry under another key. -/
def ClientDB.FramePreserved (self : ClientDB) (w w' : Window) : Prop :=
  (self.type = "local" →
    w'.sessionStorage = w.sessionStorage ∧
      ∀ k, k ≠ self.dbName → w'.localStorage k = w.localStorage k) ∧
  (self.type = "session" →
    w'.localStorage = w.localStorage ∧
      ∀ k, k ≠ self.dbName → w'.sessionStorage k = w.sessionStorage k)

/-- An instance named `"db"` whose type selector is not recognised. -/
def unknownDb : ClientDB := ⟨"db", "indexeddb"⟩

/-- A window with entries beside the local slot `"db"`: another local key and a session
entry under the same name. -/
def mixedWindow : Window :=
  ⟨fun k => if k = "db" then some "\x7b\x7d" else if k = "other" then some "x" else none,
   fun k => if k = "db" then some "s" else none⟩

/-- The spread of the value stays inside the model: true for every value except a string
with a character beyond the basic plane, whose spread `ownEnumerable` does not represent. -/
def Json.spreadInModel : Json → Bool
  | .str s => s.data.all (fun c => c.toNat < 65536)
  | _ => true

/-! ## Lemmas -/

theorem digitChar_isDigit : ∀ d, d < 10 → (digitChar d).isDigit = true := by decide
theorem digitValue_digitChar : ∀ d, d < 10 → digitValue (digitChar d) = d := by decide
theorem digitChar_ne_zero : ∀ d, d < 10 → d ≠ 0 → digitChar d ≠ '0' := by decide

/-- Specification of the digit loop. -/
theorem natDigitsAux_spec (fuel : Nat) : ∀ n acc, n < fuel →
    ∃ ds, natDigitsAux fuel n acc = ds ++ acc ∧ ds ≠ [] ∧ (∀ c ∈ ds, c.isDigit = true) ∧
      digitsToNat ds = n ∧ (n ≠ 0 → ds.head? ≠ some '0') ∧ (n = 0 → ds = ['0']) := by
  induction fuel with
  | zero => intro n acc h; omega
  | succ fuel ih =>
    intro n acc h
    unfold natDigitsAux
    by_cases hn : n < 10
    · refine ⟨[digitChar n], by simp [hn], by simp, ?_, ?_, ?_, ?_⟩
      · intro c hc
        simp at hc
        subst hc
        exact digitChar_isDigit n hn
      · simp [digitsToNat, digitValue_digitChar n hn]
      · intro h0
        simp
        exact digitChar_ne_zero n hn h0
      · intro h0
        subst h0
        rfl
    · have hlt : n / 10 < fuel := by omega
      obtain ⟨ds, h1, h2, h3, h4, h5, _⟩ := ih (n / 10) (digitChar (n % 10) :: acc) hlt
      have hmod : n % 10 < 10 := Nat.mod_lt _ (by decide)
      refine ⟨ds ++ [digitChar (n % 10)], by simp [hn, h1], by simp, ?_, ?_, ?_, ?_⟩
      · intro c hc
        simp at hc
        rcases hc with hc | hc
        · exact h3 c hc
        · subst hc
          exact digitChar_isDigit _ hmod
      · simp only [digitsToNat] at h4 ⊢
        rw [List.foldl_append]
        simp [h4, digitValue_digitChar _ hmod]
        omega
      · intro _
        have h0 : n / 10 ≠ 0 := by omega
        have := h5 h0
        cases ds with
        | nil => exact absurd rfl h2
        | cons d ds => simpa using this
      · intro h0
        omega

theorem natDigits_spec (n : Nat) :
    natDigits n ≠ [] ∧ (∀ c ∈ natDigits n, c.isDigit = true) ∧
      digitsToNat (natDigits n) = n ∧ (n ≠ 0 → (natDigits n).head? ≠ some '0') ∧
      (n = 0 → natDigits n = ['0']) := by
  obtain ⟨ds, h1, h2, h3, h4, h5, h6⟩ := natDigitsAux_spec (n + 1) n [] (by omega)
  have : natDigits n = ds := by simp [natDigits, h1]
  rw [this]
  exact ⟨h2, h3, h4, h5, h6⟩

theorem endsNumber_head (rest : List Char) (hrest : endsNumber rest = true) (c : Char)
    (hc : rest.head? = some c) : c.isDigit = false ∧ c ≠ '.' ∧ c ≠ 'e' ∧ c ≠ 'E' := by
  cases rest with
  | nil => simp at hc
  | cons d r =>
    simp at hc
    subst hc
    simpa [endsNumber, and_assoc] using hrest

theorem takeWhile_digits_append (ds rest : List Char) (h2 : ∀ c ∈ ds, c.isDigit = true)
    (hrest : endsNumber rest = true) :
    (ds ++ rest).takeWhile Char.isDigit = ds ∧ (ds ++ rest).dropWhile Char.isDigit = rest := by
  rw [List.takeWhile_append_of_pos h2, List.dropWhile_append_of_pos h2]
  cases rest with
  | nil => simp
  | cons d r =>
    have := (endsNumber_head _ hrest d rfl).1
    simp [List.takeWhile_cons, List.dropWhile_cons, this]

theorem lexNumber_natDigits (n : Nat) (rest : List Char) (hn : n ≤ maxSafeInteger)
    (hrest : endsNumber rest = true) :
    lexNumber (natDigits n ++ rest) = .ok ((n : Int), rest) ∧
    lexNumber ('-' :: (natDigits n ++ rest)) = .ok (-(n : Int), rest) := by
  obtain ⟨h1, h2, h3, h4, h5⟩ := natDigits_spec n
  obtain ⟨htake, hdrop⟩ := takeWhile_digits_append _ _ h2 hrest
  have hminus : (natDigits n ++ rest).head? ≠ some '-' := by
    cases hd : natDigits n with
    | nil => exact absurd hd h1
    | cons d ds =>
      have := h2 d (by simp [hd])
      simp
      intro h
      subst h
      simp at this
  have hdot : (rest.head? = some '.' || rest.head? = some 'e' || rest.head? = some 'E') = false := by
    cases rest with
    | nil => simp
    | cons c r =>
      have := endsNumber_head _ hrest c rfl
      simp [this.2.1, this.2.2.1, this.2.2.2]
  unfold lexNumber
  simp only [hminus, decide_False, Bool.false_eq_true, if_false, htake, hdrop, List.head?_cons,
    decide_True, if_true, List.tail_cons]
  cases hd : natDigits n with
  | nil => exact absurd hd h1
  | cons d ds =>
    simp only
    have hlead : (d = '0' && !ds.isEmpty) = false := by
      by_cases h0 : n = 0
      · have := h5 h0
        rw [this] at hd
        simp at hd
        simp [← hd.2]
      · have := h4 h0
        rw [hd] at this
        simp at this
        simp [this]
    rw [hd] at h3
    have hle : ¬ (n > maxSafeInteger) := by omega
    simp [hlead, hdot, h3, hle]

theorem lexNumber_numberToString (n : Int) (rest : List Char)
    (hn : n.natAbs ≤ maxSafeInteger) (hrest : endsNumber rest = true) :
    lexNumber (numberToString n ++ rest) = .ok (n, rest) := by
  unfold numberToString
  by_cases hneg : n < 0
  · simp only [hneg, if_true, List.cons_append]
    rw [(lexNumber_natDigits n.natAbs rest hn hrest).2]
    congr 2
    omega
  · simp only [hneg, if_false]
    rw [(lexNumber_natDigits n.natAbs rest hn hrest).1]
    congr 2
    omega

theorem numberToString_head (n : Int) :
    ∃ c cs, numberToString n = c :: cs ∧ (c = '-' ∨ c.isDigit = true) := by
  obtain ⟨h1, h2, -⟩ := natDigits_spec n.natAbs
  unfold numberToString
  by_cases hneg : n < 0
  · exact ⟨'-', natDigits n.natAbs, by simp [hneg], Or.inl rfl⟩
  · cases hd : natDigits n.natAbs with
    | nil => exact absurd hd h1
    | cons d ds => exact ⟨d, ds, by simp [hneg, hd], Or.inr (h2 d (by simp [hd]))⟩

/-! ### Strings -/

theorem hex4_escape : ∀ n, n < 32 →
    hex4 '0' '0' (hexDigit (n / 16)) (hexDigit (n % 16)) = some n := by decide

theorem lexString_cons (c : Char) (rest : List Char) :
    lexString (c :: rest) =
      if c = '"' then .ok ([], rest)
      else if c = '\\' then
        match rest with
        | [] => .error .syntaxError
        | e :: rest1 =>
          if e = 'u' then
            match rest1 with
            | h1 :: h2 :: h3 :: h4 :: rest2 =>
              match hex4 h1 h2 h3 h4 with
              | none => .error .syntaxError
              | some u =>
                if 55296 ≤ u && u ≤ 57343 then .error .outsideModel
                else consChar (Char.ofNat u) (lexString rest2)
            | _ => .error .syntaxError
          else
            match simpleEscape e with
            | some ch => consChar ch (lexString rest1)
            | none => .error .syntaxError
      else if c.toNat < 32 then .error .syntaxError
      else consChar c (lexString rest) := by
  rw [lexString.eq_def]

theorem lexString_quoteChar (c : Char) (tl : List Char) :
    lexString (quoteChar c ++ tl) = consChar c (lexString tl) := by
  unfold quoteChar
  split_ifs with h1 h2 h3 h4 h5 h6 h7 h8
  · subst h1; simp [lexString_cons, simpleEscape]
  · subst h2; simp [lexString_cons, simpleEscape]
  · subst h3; simp [lexString_cons, simpleEscape]
  · subst h4; simp [lexString_cons, simpleEscape]
  · subst h5; simp [lexString_cons, simpleEscape]
  · subst h6; simp [lexString_cons, simpleEscape]
  · subst h7; simp [lexString_cons, simpleEscape]
  · have hx := hex4_escape c.toNat h8
    have hc : Char.ofNat c.toNat = c := Char.ofNat_toNat c
    simp only [List.cons_append, List.nil_append]
    rw [lexString_cons]
    simp [hx, hc]
    omega
  · simp only [List.cons_append, List.nil_append]
    rw [lexString_cons]
    simp [h1, h2, h8]

theorem lexString_quoteBody (s rest : List Char) :
    lexString (quoteBody s ++ rest) = .ok (s, rest) := by
  induction s with
  | nil => simp [quoteBody, lexString_cons]
  | cons c cs ih =>
    simp only [quoteBody, List.append_assoc]
    rw [lexString_quoteChar, ih]
    rfl

theorem endsNumber_renderTokens (ts : List Token) (h : startsWithNum ts = false) :
    endsNumber (renderTokens ts) = true := by
  cases ts with
  | nil => rfl
  | cons t ts =>
    cases t <;> simp [startsWithNum] at h <;> simp [renderTokens, Token.render, endsNumber]

theorem lexTokens_succ_cons (fuel : Nat) (c : Char) (cs : List Char) :
    lexTokens (fuel + 1) (c :: cs) =
    if isJsonWhitespace c then lexTokens fuel cs
    else if c = '\x7b' then consToken .lbrace (lexTokens fuel cs)
    else if c = '\x7d' then consToken .rbrace (lexTokens fuel cs)
    else if c = '[' then consToken .lbrack (lexTokens fuel cs)
    else if c = ']' then consToken .rbrack (lexTokens fuel cs)
    else if c = ':' then consToken .colon (lexTokens fuel cs)
    else if c = ',' then consToken .comma (lexTokens fuel cs)
    else if c = '"' then
      match lexString cs with
      | .error f => .error f
      | .ok (s, rest) => consToken (.str (String.mk s)) (lexTokens fuel rest)
    else if c = '-' || c.isDigit then
      match lexNumber (c :: cs) with
      | .error f => .error f
      | .ok (n, rest) => consToken (.num n) (lexTokens fuel rest)
    else if c = 't' && cs.take 3 = ['r', 'u', 'e'] then
      consToken .litTrue (lexTokens fuel (cs.drop 3))
    else if c = 'f' && cs.take 4 = ['a', 'l', 's', 'e'] then
      consToken .litFalse (lexTokens fuel (cs.drop 4))
    else if c = 'n' && cs.take 3 = ['u', 'l', 'l'] then
      consToken .litNull (lexTokens fuel (cs.drop 3))
    else .error .syntaxError := by
  rw [lexTokens]

theorem numberStart_branch (c : Char) (h : c = '-' ∨ c.isDigit = true) :
    isJsonWhitespace c = false ∧ c ≠ '\x7b' ∧ c ≠ '\x7d' ∧ c ≠ '[' ∧ c ≠ ']' ∧ c ≠ ':' ∧
      c ≠ ',' ∧ c ≠ '"' := by
  rcases h with h | h
  · subst h; decide
  · refine ⟨?_, ?_, ?_, ?_, ?_, ?_, ?_, ?_⟩
    · simp only [isJsonWhitespace, Bool.or_eq_false_iff, decide_eq_false_iff_not]
      refine ⟨⟨⟨?_, ?_⟩, ?_⟩, ?_⟩ <;> (intro hc; subst hc; revert h; decide)
    all_goals (intro hc; subst hc; revert h; decide)

theorem lexTokens_renderTokens (ts : List Token) : ∀ fuel, lexable ts = true →
    (renderTokens ts).length < fuel → lexTokens fuel (renderTokens ts) = .ok ts := by
  induction ts with
  | nil =>
    intro fuel _ hf
    cases fuel with
    | zero => simp at hf
    | succ f => simp [renderTokens, lexTokens]
  | cons t ts ih =>
    intro fuel hl hf
    cases fuel with
    | zero => simp at hf
    | succ f =>
      have hl2 : lexable ts = true := by
        simp only [lexable, Bool.and_eq_true] at hl
        exact hl.2
      cases t with
      | str s =>
        simp only [renderTokens, Token.render, List.cons_append, List.length_cons,
          List.length_append] at hf ⊢
        rw [lexTokens_succ_cons, lexString_quoteBody]
        simp [isJsonWhitespace]
        rw [ih f hl2 (by omega)]
        rfl
      | num n =>
        simp only [lexable, Bool.and_eq_true, decide_eq_true_eq, Bool.not_eq_true'] at hl
        obtain ⟨c, cs, hcs, hc⟩ := numberToString_head n
        have hlex := lexNumber_numberToString n (renderTokens ts) hl.1.1
          (endsNumber_renderTokens ts hl.1.2)
        simp only [renderTokens, Token.render, List.length_append] at hf ⊢
        rw [hcs] at hlex hf ⊢
        obtain ⟨b1, b2, b3, b4, b5, b6, b7, b8⟩ := numberStart_branch c hc
        simp only [List.cons_append, List.length_cons] at hf hlex ⊢
        rw [lexTokens_succ_cons]
        have hor : (c = '-' || c.isDigit) = true := by
          rcases hc with hc | hc <;> simp [hc]
        simp only [b1, b2, b3, b4, b5, b6, b7, b8, if_false, Bool.false_eq_true, hor, if_true, hlex]
        rw [ih f hl2 (by omega)]
        rfl
      | _ =>
        simp only [renderTokens, Token.render, List.cons_append, List.length_cons,
          List.length_append, List.nil_append] at hf ⊢
        rw [lexTokens_succ_cons]
        simp [isJsonWhitespace]
        rw [ih f hl2 (by omega)]
        rfl

mutual
/-- Structural induction on JSON values. -/
theorem Json.induct {P : Json → Prop} (hnull : P .null) (hbool : ∀ b, P (.bool b))
    (hnum : ∀ n, P (.num n)) (hstr : ∀ s, P (.str s))
    (harr : ∀ xs, (∀ x ∈ xs, P x) → P (.arr xs))
    (hobj : ∀ ms : List (String × Json), (∀ p ∈ ms, P p.2) → P (.obj ms)) : ∀ v : Json, P v
  | .null => hnull
  | .bool b => hbool b
  | .num n => hnum n
  | .str s => hstr s
  | .arr xs => harr xs (Json.induct_list hnull hbool hnum hstr harr hobj xs)
  | .obj ms => hobj ms (Json.induct_members hnull hbool hnum hstr harr hobj ms)
/-- Induction hypothesis for the elements of an array. -/
theorem Json.induct_list {P : Json → Prop} (hnull : P .null) (hbool : ∀ b, P (.bool b))
    (hnum : ∀ n, P (.num n)) (hstr : ∀ s, P (.str s))
    (harr : ∀ xs, (∀ x ∈ xs, P x) → P (.arr xs))
    (hobj : ∀ ms : List (String × Json), (∀ p ∈ ms, P p.2) → P (.obj ms)) :
    ∀ xs : List Json, ∀ x ∈ xs, P x
  | [] => fun _ h => absurd h (List.not_mem_nil _)
  | y :: ys => fun x h =>
    (List.mem_cons.mp h).elim (fun e => e ▸ Json.induct hnull hbool hnum hstr harr hobj y)
      (fun h2 => Json.induct_list hnull hbool hnum hstr harr hobj ys x h2)
/-- Induction hypothesis for the members of an object. -/
theorem Json.induct_members {P : Json → Prop} (hnull : P .null) (hbool : ∀ b, P (.bool b))
    (hnum : ∀ n, P (.num n)) (hstr : ∀ s, P (.str s))
    (harr : ∀ xs, (∀ x ∈ xs, P x) → P (.arr xs))
    (hobj : ∀ ms : List (String × Json), (∀ p ∈ ms, P p.2) → P (.obj ms)) :
    ∀ ms : List (String × Json), ∀ p ∈ ms, P p.2
  | [] => fun _ h => absurd h (List.not_mem_nil _)
  | (_, v) :: ys => fun p h =>
    (List.mem_cons.mp h).elim (fun e => e ▸ Json.induct hnull hbool hnum hstr harr hobj v)
      (fun h2 => Json.induct_members hnull hbool hnum hstr harr hobj ys p h2)
end

theorem representableList_iff (xs : List Json) :
    representableList xs = true ↔ ∀ x ∈ xs, x.representable = true := by
  induction xs with
  | nil => simp [representableList]
  | cons x xs ih => simp [representableList, ih]

theorem representableMembers_iff (ms : List (String × Json)) :
    representableMembers ms = true ↔ ∀ p ∈ ms, p.2.representable = true := by
  induction ms with
  | nil => simp [representableMembers]
  | cons p ms ih =>
    obtain ⟨k, v⟩ := p
    simp [representableMembers, ih]

/-! ### Own-property order -/

theorem ownKeyOrdered_iff (ks : List String) :
    ownKeyOrdered ks = true ↔ ks.Pairwise keyBefore := by
  induction ks with
  | nil => simp [ownKeyOrdered]
  | cons k ks ih =>
    simp only [ownKeyOrdered, List.pairwise_cons, Bool.and_eq_true, ih, Bool.not_eq_true',
      keyBefore]
    constructor
    · rintro ⟨⟨h1, h2⟩, h3⟩
      refine ⟨?_, h2⟩
      intro b hb
      have hne : k ≠ b := by
        intro e
        subst e
        simp [hb] at h1
      refine ⟨hne, ?_⟩
      cases hk : arrayIndex k with
      | none =>
        simp only [hk, List.all_eq_true] at h3
        have := h3 b hb
        cases hb2 : arrayIndex b with
        | none => trivial
        | some j => simp [hb2] at this
      | some i =>
        simp only [hk, List.all_eq_true] at h3
        have := h3 b hb
        cases hb2 : arrayIndex b with
        | none => trivial
        | some j => simpa [hb2] using this
    · rintro ⟨h1, h2⟩
      refine ⟨⟨?_, h2⟩, ?_⟩
      · cases hc : ks.contains k with
        | false => rfl
        | true =>
          have : k ∈ ks := by simpa using hc
          exact absurd rfl (h1 k this).1
      · cases hk : arrayIndex k with
        | none =>
          simp only [List.all_eq_true]
          intro b hb
          have := (h1 b hb).2
          cases hb2 : arrayIndex b with
          | none => rfl
          | some j => simp [hk, hb2] at this
        | some i =>
          simp only [List.all_eq_true]
          intro b hb
          have := (h1 b hb).2
          cases hb2 : arrayIndex b with
          | none => rfl
          | some j => simpa [hk, hb2] using this

theorem natDigitsAux_eq (n : Nat) : ∀ fuel acc, n < fuel →
    natDigitsAux fuel n acc = natDigits n ++ acc := by
  induction n using Nat.strong_induction_on with
  | _ n ih =>
    intro fuel acc h
    cases fuel with
    | zero => omega
    | succ f =>
      by_cases hn : n < 10
      · simp [natDigits, natDigitsAux, hn]
      · have hlt : n / 10 < n := by omega
        have e1 := ih (n / 10) hlt f (digitChar (n % 10) :: acc) (by omega)
        have e2 := ih (n / 10) hlt n [digitChar (n % 10)] (by omega)
        simp only [natDigits, natDigitsAux, hn, if_false] at e1 e2 ⊢
        rw [e1, e2]
        simp

theorem natDigits_small (n : Nat) (h : n < 10) : natDigits n = [digitChar n] := by
  simp [natDigits, natDigitsAux, h]

theorem natDigits_step (n : Nat) (h : 10 ≤ n) :
    natDigits n = natDigits (n / 10) ++ [digitChar (n % 10)] := by
  have hn : ¬ n < 10 := by omega
  have := natDigitsAux_eq (n / 10) n [digitChar (n % 10)] (by omega)
  simp only [natDigits, natDigitsAux, hn, if_false] at this ⊢
  rw [this]

theorem isDigit_bounds (c : Char) (h : c.isDigit = true) : 48 ≤ c.toNat ∧ c.toNat ≤ 57 := by
  simp only [Char.isDigit, Bool.and_eq_true, decide_eq_true_eq] at h
  obtain ⟨h1, h2⟩ := h
  have h1 : (48 : UInt32).toNat ≤ c.val.toNat := h1
  have h2 : c.val.toNat ≤ (57 : UInt32).toNat := h2
  exact ⟨h1, h2⟩

theorem digitChar_digitValue (c : Char) (h : c.isDigit = true) :
    digitChar (digitValue c) = c ∧ digitValue c < 10 := by
  obtain ⟨h1, h2⟩ := isDigit_bounds c h
  have : 48 + (c.toNat - 48) = c.toNat := by omega
  simp only [digitChar, digitValue, this, Char.ofNat_toNat, true_and]
  omega

theorem digitsToNat_append (ds : List Char) (d : Char) :
    digitsToNat (ds ++ [d]) = 10 * digitsToNat ds + digitValue d := by
  simp [digitsToNat, List.foldl_append]

theorem natDigits_digitsToNat (ds : List Char) : ds ≠ [] → (∀ c ∈ ds, c.isDigit = true) →
    (ds.head? ≠ some '0' ∨ ds.length = 1) → natDigits (digitsToNat ds) = ds := by
  induction ds using List.reverseRecOn with
  | nil => intro h; exact absurd rfl h
  | append_singleton init d ih =>
    intro _ hall hlead
    have hd := digitChar_digitValue d (hall d (by simp))
    rw [digitsToNat_append]
    cases init with
    | nil =>
      simp only [digitsToNat, List.foldl_nil, Nat.mul_zero, Nat.zero_add, List.nil_append]
      rw [natDigits_small _ hd.2, hd.1]
    | cons a as =>
      have hall2 : ∀ c ∈ a :: as, c.isDigit = true := fun c hc => hall c (by simp at hc ⊢; tauto)
      have hhead : a ≠ '0' := by
        rcases hlead with h | h
        · simpa using h
        · simp at h
      have := ih (by simp) hall2 (Or.inl (by simpa using hhead))
      have hpos : digitsToNat (a :: as) ≠ 0 := by
        intro h0
        rw [h0] at this
        have h1 : natDigits 0 = ['0'] := rfl
        rw [h1] at this
        simp at this
        exact hhead this.1.symm
      rw [natDigits_step _ (by omega)]
      have e1 : (10 * digitsToNat (a :: as) + digitValue d) / 10 = digitsToNat (a :: as) := by
        omega
      have e2 : (10 * digitsToNat (a :: as) + digitValue d) % 10 = digitValue d := by omega
      rw [e1, e2, this, hd.1]

theorem arrayIndex_eq_some (k : String) (i : Nat) (h : arrayIndex k = some i) :
    k = String.mk (natDigits i) := by
  unfold arrayIndex at h
  cases hk : k.data with
  | nil => simp [hk] at h
  | cons c cs =>
    simp only [hk] at h
    split_ifs at h with h1 h2
    simp only [Option.some.injEq] at h
    simp only [Bool.and_eq_true, List.all_eq_true, Bool.or_eq_true, bne_iff_ne, ne_eq,
      List.isEmpty_iff] at h1
    have := natDigits_digitsToNat (c :: cs) (by simp) h1.1 (by
      rcases h1.2 with h | h
      · left; simpa using h
      · right; simp [h])
    rw [h] at this
    rw [this, ← hk]

theorem arrayIndex_inj (a b : String) (i : Nat) (ha : arrayIndex a = some i)
    (hb : arrayIndex b = some i) : a = b := by
  rw [arrayIndex_eq_some a i ha, arrayIndex_eq_some b i hb]

theorem hasOwn_iff (k : String) (ms : Members) : hasOwn k ms = true ↔ k ∈ keysOf ms := by
  induction ms with
  | nil => simp [hasOwn, keysOf]
  | cons p ms ih =>
    obtain ⟨k', v⟩ := p
    simp only [hasOwn, keysOf, List.map_cons, List.mem_cons] at ih ⊢
    by_cases h : k' = k
    · simp [h]
    · simp only [h, if_false, ih]
      constructor
      · exact Or.inr
      · rintro (e | e)
        · exact absurd e.symm h
        · exact e

theorem getOwn_isSome (k : String) (ms : Members) : (getOwn k ms).isSome = hasOwn k ms := by
  induction ms with
  | nil => rfl
  | cons p ms ih =>
    obtain ⟨k', v⟩ := p
    by_cases h : k' = k <;> simp [getOwn, hasOwn, h, ih]

theorem getOwn_eq_none_iff (k : String) (ms : Members) : getOwn k ms = none ↔ k ∉ keysOf ms := by
  rw [← hasOwn_iff, ← getOwn_isSome]
  cases getOwn k ms <;> simp

theorem keysOf_replaceOwn (k : String) (v : Json) (ms : Members) :
    keysOf (replaceOwn k v ms) = keysOf ms := by
  induction ms with
  | nil => rfl
  | cons p ms ih =>
    obtain ⟨k', v'⟩ := p
    simp only [keysOf, List.map_cons] at ih ⊢
    by_cases h : k' = k
    · simp [replaceOwn, h]
    · simp [replaceOwn, h, ih]

theorem getOwn_replaceOwn (k : String) (v : Json) (ms : Members) (h : hasOwn k ms = true)
    (q : String) : getOwn q (replaceOwn k v ms) = if q = k then some v else getOwn q ms := by
  induction ms with
  | nil => simp [hasOwn] at h
  | cons p ms ih =>
    obtain ⟨k', v'⟩ := p
    by_cases hk : k' = k
    · subst hk
      by_cases hq : q = k'
      · simp [replaceOwn, getOwn, hq]
      · have : ¬ k' = q := fun e => hq e.symm
        simp [replaceOwn, getOwn, hq, this]
    · have h2 : hasOwn k ms = true := by simpa [hasOwn, hk] using h
      simp only [replaceOwn, hk, if_false, getOwn, ih h2]
      by_cases hq : k' = q
      · have : ¬ q = k := fun e => hk (hq.trans e)
        simp [hq, this]
      · simp [hq]

theorem getOwn_append (q : String) (a b : Members) :
    getOwn q (a ++ b) = match getOwn q a with
      | some v => some v
      | none => getOwn q b := by
  induction a with
  | nil => simp [getOwn]
  | cons p a ih =>
    obtain ⟨k', v'⟩ := p
    by_cases h : k' = q <;> simp [getOwn, h, ih]

theorem keysOf_insertIndexed (i : Nat) (k : String) (v : Json) (ms : Members) (x : String) :
    x ∈ keysOf (insertIndexed i k v ms) ↔ x = k ∨ x ∈ keysOf ms := by
  induction ms with
  | nil => simp [insertIndexed, keysOf]
  | cons p ms ih =>
    obtain ⟨k', v'⟩ := p
    simp only [keysOf, List.map_cons, List.mem_cons] at ih ⊢
    simp only [insertIndexed]
    cases hk : arrayIndex k' with
    | none => simp
    | some j =>
      by_cases hj : j < i
      · simp only [hj, if_true, List.map_cons, List.mem_cons, ih]
        tauto
      · simp [hj]

theorem getOwn_insertIndexed (i : Nat) (k : String) (v : Json) (ms : Members)
    (h : hasOwn k ms = false) (q : String) :
    getOwn q (insertIndexed i k v ms) = if q = k then some v else getOwn q ms := by
  induction ms with
  | nil =>
    by_cases hq : q = k
    · simp [insertIndexed, getOwn, hq]
    · have : ¬ k = q := fun e => hq e.symm
      simp [insertIndexed, getOwn, hq, this]
  | cons p ms ih =>
    obtain ⟨k', v'⟩ := p
    have hk : ¬ k' = k := by
      intro e
      simp [hasOwn, e] at h
    have h2 : hasOwn k ms = false := by simpa [hasOwn, hk] using h
    have hfront : getOwn q ((k, v) :: (k', v') :: ms) =
        if q = k then some v else getOwn q ((k', v') :: ms) := by
      by_cases hq : q = k
      · simp [getOwn, hq]
      · have : ¬ k = q := fun e => hq e.symm
        simp [getOwn, hq, this]
    simp only [insertIndexed]
    cases hidx : arrayIndex k' with
    | none => exact hfront
    | some j =>
      by_cases hj : j < i
      · simp only [hj, if_true, getOwn, ih h2]
        by_cases hq : k' = q
        · have : ¬ q = k := fun e => hk (hq.trans e)
          simp [hq, this]
        · simp [hq]
      · simp only [hj, if_false]
        exact hfront

/-- Reading a property after `defineProp`: the defined key has the new value, every other
key is untouched. -/
theorem getOwn_defineProp (ms : Members) (k : String) (v : Json) (q : String) :
    getOwn q (defineProp ms k v) = if q = k then some v else getOwn q ms := by
  unfold defineProp
  cases h : hasOwn k ms with
  | true => simpa using getOwn_replaceOwn k v ms h q
  | false =>
    simp only [Bool.false_eq_true, if_false]
    cases hidx : arrayIndex k with
    | some i => exact getOwn_insertIndexed i k v ms h q
    | none =>
      simp only [getOwn_append]
      have hnone : getOwn k ms = none := by
        have := getOwn_isSome k ms
        rw [h] at this
        cases hg : getOwn k ms with
        | none => rfl
        | some _ => simp [hg] at this
      by_cases hq : q = k
      · subst hq
        simp [hnone, getOwn]
      · have : ¬ k = q := fun e => hq e.symm
        simp only [hq, if_false, getOwn, this]
        cases getOwn q ms <;> rfl

theorem keysOf_defineProp (ms : Members) (k : String) (v : Json) (x : String) :
    x ∈ keysOf (defineProp ms k v) ↔ x = k ∨ x ∈ keysOf ms := by
  rw [← hasOwn_iff, ← hasOwn_iff, ← getOwn_isSome, ← getOwn_isSome, getOwn_defineProp]
  by_cases h : x = k <;> simp [h]

theorem keyBefore_of_index_none (a k : String) (hne : a ≠ k) (hk : arrayIndex k = none) :
    keyBefore a k := by
  refine ⟨hne, ?_⟩
  cases arrayIndex a <;> simp [hk]

theorem keyBefore_index_lt (a k : String) (i : Nat) (hk : arrayIndex k = some i)
    (h : keyBefore a k) : ∃ j, arrayIndex a = some j ∧ j < i := by
  have := h.2
  cases ha : arrayIndex a with
  | none => simp [ha, hk] at this
  | some j => exact ⟨j, rfl, by simpa [ha, hk] using this⟩

theorem pairwise_insertIndexed (i : Nat) (k : String) (v : Json) (hidx : arrayIndex k = some i)
    (ms : Members) (hk : k ∉ keysOf ms) (hord : (keysOf ms).Pairwise keyBefore) :
    (keysOf (insertIndexed i k v ms)).Pairwise keyBefore := by
  induction ms with
  | nil => simp [insertIndexed, keysOf]
  | cons p ms ih =>
    obtain ⟨k', v'⟩ := p
    have hkk : k ≠ k' := by
      intro e
      exact hk (by simp [keysOf, e])
    have hk2 : k ∉ keysOf ms := by
      intro e
      exact hk (by simp only [keysOf, List.map_cons, List.mem_cons] at e ⊢; exact Or.inr e)
    have hord1 : ∀ x ∈ keysOf ms, keyBefore k' x := by
      simp only [keysOf, List.map_cons, List.pairwise_cons] at hord
      exact hord.1
    have hord2 : (keysOf ms).Pairwise keyBefore := by
      simp only [keysOf, List.map_cons, List.pairwise_cons] at hord
      exact hord.2
    have hfront : (∀ x ∈ keysOf ((k', v') :: ms), keyBefore k x) →
        (keysOf ((k, v) :: (k', v') :: ms)).Pairwise keyBefore := by
      intro h
      simp only [keysOf, List.map_cons, List.pairwise_cons] at h hord ⊢
      exact ⟨h, hord⟩
    simp only [insertIndexed]
    cases hidx' : arrayIndex k' with
    | none =>
      apply hfront
      intro x hx
      have hxk : k ≠ x := fun e => hk (e ▸ hx)
      refine ⟨hxk, ?_⟩
      have hxn : arrayIndex x = none := by
        simp only [keysOf, List.map_cons, List.mem_cons] at hx
        rcases hx with e | hx
        · rw [e]; exact hidx'
        · have := (hord1 x hx).2
          cases hxi : arrayIndex x with
          | none => rfl
          | some j => simp [hidx', hxi] at this
      simp [hidx, hxn]
    | some j =>
      by_cases hj : j < i
      · simp only [hj, if_true, keysOf, List.map_cons, List.pairwise_cons]
        refine ⟨?_, ih hk2 hord2⟩
        intro x hx
        rcases (keysOf_insertIndexed i k v ms x).mp hx with e | hx
        · subst e
          refine ⟨fun e => hkk e.symm, ?_⟩
          simp [hidx, hidx', hj]
        · exact hord1 x hx
      · simp only [hj, if_false]
        apply hfront
        intro x hx
        have hxk : k ≠ x := fun e => hk (e ▸ hx)
        refine ⟨hxk, ?_⟩
        have hij : i < j := by
          have : i ≠ j := by
            intro e
            subst e
            exact hkk (arrayIndex_inj k k' i hidx hidx')
          omega
        simp only [keysOf, List.map_cons, List.mem_cons] at hx
        rcases hx with e | hx
        · subst e
          simp [hidx, hidx', hij]
        · have := (hord1 x hx).2
          cases hxi : arrayIndex x with
          | none => simp [hidx]
          | some j' =>
            simp only [hidx', hxi] at this
            simp only [hidx]
            omega

theorem keysOf_append (a b : Members) : keysOf (a ++ b) = keysOf a ++ keysOf b := by
  simp [keysOf]

/-- The operation `defineProp` keeps the own-property order. -/
theorem pairwise_defineProp (ms : Members) (k : String) (v : Json)
    (hord : (keysOf ms).Pairwise keyBefore) : (keysOf (defineProp ms k v)).Pairwise keyBefore := by
  unfold defineProp
  cases h : hasOwn k ms with
  | true => simpa [keysOf_replaceOwn] using hord
  | false =>
    have hk : k ∉ keysOf ms := by
      rw [← hasOwn_iff, h]
      simp
    simp only [Bool.false_eq_true, if_false]
    cases hidx : arrayIndex k with
    | some i => exact pairwise_insertIndexed i k v hidx ms hk hord
    | none =>
      simp only [keysOf_append, List.pairwise_append]
      refine ⟨hord, by simp [keysOf], ?_⟩
      intro a ha b hb
      simp only [keysOf, List.map_cons, List.map_nil, List.mem_singleton] at hb
      subst hb
      exact keyBefore_of_index_none a b (fun e => hk (e ▸ ha)) hidx

theorem pairwise_copyDataProperties (source target : Members)
    (hord : (keysOf target).Pairwise keyBefore) :
    (keysOf (copyDataProperties target source)).Pairwise keyBefore := by
  induction source generalizing target with
  | nil => simpa [copyDataProperties] using hord
  | cons p s ih =>
    simp only [copyDataProperties, List.foldl_cons] at ih ⊢
    exact ih _ (pairwise_defineProp target p.1 p.2 hord)

theorem insertIndexed_last (i : Nat) (k : String) (v : Json) (ms : Members)
    (h : ∀ a ∈ keysOf ms, ∃ j, arrayIndex a = some j ∧ j < i) :
    insertIndexed i k v ms = ms ++ [(k, v)] := by
  induction ms with
  | nil => rfl
  | cons p ms ih =>
    obtain ⟨k', v'⟩ := p
    obtain ⟨j, hj1, hj2⟩ := h k' (by simp [keysOf])
    have h2 : ∀ a ∈ keysOf ms, ∃ j, arrayIndex a = some j ∧ j < i := by
      intro a ha
      exact h a (by simp only [keysOf, List.map_cons, List.mem_cons] at ha ⊢; exact Or.inr ha)
    simp [insertIndexed, hj1, hj2, ih h2]

/-- Defining a key that may come last appends it. -/
theorem defineProp_last (pre : Members) (k : String) (v : Json)
    (hord : (keysOf (pre ++ [(k, v)])).Pairwise keyBefore) :
    defineProp pre k v = pre ++ [(k, v)] := by
  simp only [keysOf_append, List.pairwise_append] at hord
  obtain ⟨_, _, h3⟩ := hord
  have h3 : ∀ a ∈ keysOf pre, keyBefore a k := fun a ha => h3 a ha k (by simp [keysOf])
  have hk : hasOwn k pre = false := by
    cases h : hasOwn k pre with
    | false => rfl
    | true => exact absurd rfl (h3 k ((hasOwn_iff k pre).mp h)).1
  unfold defineProp
  simp only [hk, Bool.false_eq_true, if_false]
  cases hidx : arrayIndex k with
  | none => rfl
  | some i =>
    exact insertIndexed_last i k v pre (fun a ha => keyBefore_index_lt a k i hidx (h3 a ha))

/-- Copying an ordered property list onto an ordered compatible target appends it; in
particular a spread of an object into a fresh object gives the same property list. -/
theorem copyDataProperties_ordered (suf pre : Members)
    (hord : (keysOf (pre ++ suf)).Pairwise keyBefore) :
    copyDataProperties pre suf = pre ++ suf := by
  induction suf generalizing pre with
  | nil => simp [copyDataProperties]
  | cons p s ih =>
    obtain ⟨k, v⟩ := p
    have e : pre ++ (k, v) :: s = (pre ++ [(k, v)]) ++ s := by simp
    have hpre : (keysOf (pre ++ [(k, v)])).Pairwise keyBefore := by
      rw [e, keysOf_append] at hord
      exact (List.pairwise_append.mp hord).1
    simp only [copyDataProperties, List.foldl_cons] at ih ⊢
    rw [defineProp_last pre k v hpre, ih _ (by rw [← e]; exact hord), e]

theorem getOwn_copyDataProperties (source target : Members)
    (hnd : (keysOf source).Nodup) (q : String) :
    getOwn q (copyDataProperties target source) =
      match getOwn q source with
      | some v => some v
      | none => getOwn q target := by
  induction source generalizing target with
  | nil => simp [copyDataProperties, getOwn]
  | cons p s ih =>
    obtain ⟨k, v⟩ := p
    simp only [keysOf, List.map_cons, List.nodup_cons] at hnd
    simp only [copyDataProperties, List.foldl_cons] at ih ⊢
    rw [ih _ hnd.2, getOwn_defineProp]
    by_cases hq : k = q
    · subst hq
      have : getOwn k s = none := (getOwn_eq_none_iff k s).mpr hnd.1
      simp [getOwn, this]
    · have hq2 : ¬ q = k := fun e => hq e.symm
      simp [getOwn, hq, hq2]

theorem keysOf_copyDataProperties (source target : Members) (x : String) :
    x ∈ keysOf (copyDataProperties target source) ↔ x ∈ keysOf target ∨ x ∈ keysOf source := by
  induction source generalizing target with
  | nil => simp [copyDataProperties, keysOf]
  | cons p s ih =>
    simp only [copyDataProperties, List.foldl_cons] at ih ⊢
    rw [ih, keysOf_defineProp]
    simp only [keysOf, List.map_cons, List.mem_cons]
    tauto

theorem pairwise_keyBefore_nodup (ks : List String) (h : ks.Pairwise keyBefore) : ks.Nodup := by
  exact List.Pairwise.imp (fun hab => hab.1) h

theorem mem_replaceOwn (k : String) (v : Json) (ms : Members) (p : String × Json)
    (h : p ∈ replaceOwn k v ms) : p = (k, v) ∨ p ∈ ms := by
  induction ms with
  | nil => simp [replaceOwn] at h
  | cons q ms ih =>
    obtain ⟨k', v'⟩ := q
    by_cases hk : k' = k
    · simp only [replaceOwn, hk, if_true, List.mem_cons] at h ⊢
      tauto
    · simp only [replaceOwn, hk, if_false, List.mem_cons] at h ⊢
      rcases h with h | h
      · exact Or.inr (Or.inl h)
      · rcases ih h with h | h
        · exact Or.inl h
        · exact Or.inr (Or.inr h)

theorem mem_insertIndexed (i : Nat) (k : String) (v : Json) (ms : Members) (p : String × Json)
    (h : p ∈ insertIndexed i k v ms) : p = (k, v) ∨ p ∈ ms := by
  induction ms with
  | nil => simpa [insertIndexed] using h
  | cons q ms ih =>
    obtain ⟨k', v'⟩ := q
    simp only [insertIndexed] at h
    cases hidx : arrayIndex k' with
    | none => simpa [hidx] using h
    | some j =>
      by_cases hj : j < i
      · simp only [hidx, hj, if_true, List.mem_cons] at h ⊢
        rcases h with h | h
        · exact Or.inr (Or.inl h)
        · rcases ih h with h | h
          · exact Or.inl h
          · exact Or.inr (Or.inr h)
      · simpa [hidx, hj] using h

theorem mem_defineProp (ms : Members) (k : String) (v : Json) (p : String × Json)
    (h : p ∈ defineProp ms k v) : p = (k, v) ∨ p ∈ ms := by
  unfold defineProp at h
  split_ifs at h
  · exact mem_replaceOwn k v ms p h
  · cases hidx : arrayIndex k with
    | some i =>
      simp only [hidx] at h
      exact mem_insertIndexed i k v ms p h
    | none =>
      simp only [hidx, List.mem_append, List.mem_singleton] at h
      tauto

theorem mem_copyDataProperties (source target : Members) (p : String × Json)
    (h : p ∈ copyDataProperties target source) : p ∈ target ∨ p ∈ source := by
  induction source generalizing target with
  | nil => exact Or.inl (by simpa [copyDataProperties] using h)
  | cons q s ih =>
    simp only [copyDataProperties, List.foldl_cons] at ih h
    rcases ih _ h with h | h
    · rcases mem_defineProp target q.1 q.2 p h with h | h
      · exact Or.inr (by simp [h])
      · exact Or.inl h
    · exact Or.inr (List.mem_cons_of_mem _ h)

theorem representable_obj_iff (ms : Members) :
    (Json.obj ms).representable = true ↔
      (keysOf ms).Pairwise keyBefore ∧ ∀ p ∈ ms, p.2.representable = true := by
  simp only [Json.representable, Bool.and_eq_true, representableMembers_iff]
  rw [← ownKeyOrdered_iff]
  rfl

/-- A spread of representable objects into a fresh object is representable. -/
theorem representable_copyDataProperties (target source : Members)
    (ht : (Json.obj target).representable = true) (hs : ∀ p ∈ source, p.2.representable = true) :
    (Json.obj (copyDataProperties target source)).representable = true := by
  rw [representable_obj_iff] at ht ⊢
  refine ⟨pairwise_copyDataProperties source target ht.1, ?_⟩
  intro p hp
  rcases mem_copyDataProperties source target p hp with h | h
  · exact ht.2 p h
  · exact hs p h

/-! ### Tokens of a value read back as the value -/

theorem startsWithNum_append (a b : List Token) (hstart : startsWithNum b = false) :
    startsWithNum (a ++ b) = startsWithNum a := by
  cases a with
  | nil => simpa [startsWithNum] using hstart
  | cons t a => cases t <;> rfl

theorem lexable_append (a b : List Token) (ha : lexable a = true) (hb : lexable b = true)
    (hstart : startsWithNum b = false) : lexable (a ++ b) = true := by
  induction a with
  | nil => simpa using hb
  | cons t a ih =>
    simp only [lexable, Bool.and_eq_true] at ha
    simp only [List.cons_append, lexable, Bool.and_eq_true]
    refine ⟨?_, ih ha.2⟩
    cases t with
    | num n =>
      have h1 := ha.1
      simp only [Bool.and_eq_true] at h1 ⊢
      have e := startsWithNum_append a b hstart
      simp only [List.append_eq] at e ⊢
      rw [e]
      exact h1
    | _ => rfl

theorem startsWithNum_elementTail (xs : List Json) : startsWithNum (elementTail xs) = false := by
  cases xs <;> rfl

theorem startsWithNum_memberTail (ms : List (String × Json)) :
    startsWithNum (memberTail ms) = false := by
  cases ms with
  | nil => rfl
  | cons p ms => obtain ⟨k, v⟩ := p; rfl

theorem lexable_elementTail (xs : List Json) (h : ∀ x ∈ xs, lexable x.tokens = true) :
    lexable (elementTail xs) = true := by
  induction xs with
  | nil => rfl
  | cons x xs ih =>
    have h1 := h x (by simp)
    have h2 := ih (fun y hy => h y (by simp [hy]))
    simp only [elementTail, lexable, Bool.true_and]
    exact lexable_append _ _ h1 h2 (startsWithNum_elementTail xs)

theorem lexable_memberTail (ms : List (String × Json)) (h : ∀ p ∈ ms, lexable p.2.tokens = true) :
    lexable (memberTail ms) = true := by
  induction ms with
  | nil => rfl
  | cons p ms ih =>
    obtain ⟨k, v⟩ := p
    have h1 := h (k, v) (by simp)
    have h2 := ih (fun y hy => h y (by simp [hy]))
    simp only [memberTail, lexable, Bool.true_and]
    exact lexable_append _ _ h1 h2 (startsWithNum_memberTail ms)

theorem lexable_tokens (v : Json) : v.representable = true → lexable v.tokens = true := by
  induction v using Json.induct with
  | hnull => intro _; rfl
  | hbool b => intro _; cases b <;> rfl
  | hnum n =>
    intro h
    simpa [Json.representable, Json.tokens, lexable, startsWithNum] using h
  | hstr s => intro _; rfl
  | harr xs ih =>
    intro h
    simp only [Json.representable, representableList_iff] at h
    have hall : ∀ x ∈ xs, lexable x.tokens = true := fun x hx => ih x hx (h x hx)
    cases xs with
    | nil => rfl
    | cons x xs =>
      simp only [Json.tokens, elementTokens, lexable, Bool.true_and]
      exact lexable_append _ _ (hall x (by simp))
        (lexable_elementTail xs (fun y hy => hall y (by simp [hy]))) (startsWithNum_elementTail xs)
  | hobj ms ih =>
    intro h
    simp only [Json.representable, Bool.and_eq_true, representableMembers_iff] at h
    have hall : ∀ p ∈ ms, lexable p.2.tokens = true := fun p hp => ih p hp (h.2 p hp)
    cases ms with
    | nil => rfl
    | cons p ms =>
      obtain ⟨k, v⟩ := p
      simp only [Json.tokens, memberTokens, lexable, Bool.true_and]
      exact lexable_append _ _ (hall (k, v) (by simp))
        (lexable_memberTail ms (fun y hy => hall y (by simp [hy]))) (startsWithNum_memberTail ms)

theorem tokens_length_pos (v : Json) : 1 ≤ v.tokens.length := by
  cases v with
  | bool b => cases b <;> simp [Json.tokens]
  | _ => simp [Json.tokens]

theorem elementTail_length_pos (xs : List Json) : 1 ≤ (elementTail xs).length := by
  cases xs <;> simp [elementTail]

theorem memberTail_length_pos (ms : List (String × Json)) : 1 ≤ (memberTail ms).length := by
  cases ms with
  | nil => simp [memberTail]
  | cons p ms => obtain ⟨k, v⟩ := p; simp [memberTail]

theorem startsWithRbrack_tokens (v : Json) (r : List Token) :
    startsWithRbrack (v.tokens ++ r) = false := by
  cases v with
  | bool b => cases b <;> rfl
  | _ => rfl

theorem parseValue_succ_cons (fuel : Nat) (t : Token) (ts : List Token) :
    parseValue (fuel + 1) (t :: ts) =
    match t with
    | .litNull => some (.null, ts)
    | .litTrue => some (.bool true, ts)
    | .litFalse => some (.bool false, ts)
    | .num n => some (.num n, ts)
    | .str s => some (.str s, ts)
    | .lbrack =>
      if startsWithRbrack ts then some (.arr [], ts.tail)
      else
        match parseElements fuel ts with
        | some (xs, rest) => some (.arr xs, rest)
        | none => none
    | .lbrace =>
      if startsWithRbrace ts then some (.obj [], ts.tail)
      else
        match parseMembers fuel ts with
        | some (ms, rest) => some (.obj (copyDataProperties [] ms), rest)
        | none => none
    | _ => none := by
  cases t <;> rfl

theorem parseElements_succ (fuel : Nat) (ts : List Token) :
    parseElements (fuel + 1) ts =
    match parseValue fuel ts with
    | none => none
    | some (v, rest) =>
      match rest with
      | .rbrack :: rest1 => some ([v], rest1)
      | .comma :: rest1 =>
        match parseElements fuel rest1 with
        | some (vs, rest2) => some (v :: vs, rest2)
        | none => none
      | _ => none := by
  rw [parseElements]

theorem parseMembers_succ (fuel : Nat) (k : String) (ts1 : List Token) :
    parseMembers (fuel + 1) (.str k :: .colon :: ts1) =
      match parseValue fuel ts1 with
      | none => none
      | some (v, rest) =>
        match rest with
        | .rbrace :: rest1 => some ([(k, v)], rest1)
        | .comma :: rest1 =>
          match parseMembers fuel rest1 with
          | some (ms, rest2) => some ((k, v) :: ms, rest2)
          | none => none
        | _ => none := by
  rw [parseMembers]

theorem parseElements_tokens (xs : List Json) : ∀ x : Json, (∀ y ∈ x :: xs, ParsesBack y) →
    ∀ fuel rest, (x.tokens ++ elementTail xs).length ≤ fuel →
      parseElements fuel (x.tokens ++ elementTail xs ++ rest) = some (x :: xs, rest) := by
  induction xs with
  | nil =>
    intro x h fuel rest hf
    have hx := h x (by simp)
    have hpos := tokens_length_pos x
    simp only [elementTail, List.length_append, List.length_singleton] at hf
    cases fuel with
    | zero => omega
    | succ f =>
      rw [parseElements_succ, List.append_assoc, hx f _ (by omega)]
      rfl
  | cons y ys ih =>
    intro x h fuel rest hf
    have hx := h x (by simp)
    have hpos := tokens_length_pos x
    simp only [elementTail, List.length_append, List.length_cons] at hf
    cases fuel with
    | zero => omega
    | succ f =>
      rw [parseElements_succ, List.append_assoc, hx f _ (by omega)]
      simp only [elementTail, List.cons_append]
      have := ih y (fun z hz => h z (by simp at hz ⊢; tauto)) f rest
        (by simp only [List.length_append]; omega)
      rw [this]

theorem parseMembers_tokens (ms : List (String × Json)) : ∀ (k : String) (v : Json),
    (∀ p ∈ (k, v) :: ms, ParsesBack p.2) →
    ∀ fuel rest, (memberTokens ((k, v) :: ms)).length ≤ fuel →
      parseMembers fuel (memberTokens ((k, v) :: ms) ++ rest) = some ((k, v) :: ms, rest) := by
  induction ms with
  | nil =>
    intro k v h fuel rest hf
    have hv : ParsesBack v := h (k, v) (by simp)
    simp only [memberTokens, memberTail, List.length_cons, List.length_append,
      List.length_singleton] at hf
    cases fuel with
    | zero => omega
    | succ f =>
      simp only [memberTokens, memberTail, List.cons_append]
      rw [parseMembers_succ, List.append_assoc, hv f _ (by omega)]
      rfl
  | cons q ms ih =>
    obtain ⟨k', v'⟩ := q
    intro k v h fuel rest hf
    have hv : ParsesBack v := h (k, v) (by simp)
    have hpos := tokens_length_pos v
    simp only [memberTokens, memberTail, List.length_cons, List.length_append] at hf
    cases fuel with
    | zero => omega
    | succ f =>
      have := ih k' v' (fun z hz => h z (by simp at hz ⊢; tauto)) f rest
        (by simp only [memberTokens, List.length_cons, List.length_append]; omega)
      simp only [memberTokens, List.cons_append] at this
      simp only [memberTokens, memberTail, List.cons_append]
      rw [parseMembers_succ, List.append_assoc, hv f _ (by omega)]
      simp only [List.cons_append]
      rw [this]

theorem parseValue_tokens (v : Json) : v.representable = true → ParsesBack v := by
  induction v using Json.induct with
  | hnull =>
    intro _ fuel rest hf
    cases fuel with
    | zero => simp [Json.tokens] at hf
    | succ f => simp [Json.tokens, parseValue_succ_cons]
  | hbool b =>
    intro _ fuel rest hf
    cases fuel with
    | zero => cases b <;> simp [Json.tokens] at hf
    | succ f => cases b <;> simp [Json.tokens, parseValue_succ_cons]
  | hnum n =>
    intro _ fuel rest hf
    cases fuel with
    | zero => simp [Json.tokens] at hf
    | succ f => simp [Json.tokens, parseValue_succ_cons]
  | hstr s =>
    intro _ fuel rest hf
    cases fuel with
    | zero => simp [Json.tokens] at hf
    | succ f => simp [Json.tokens, parseValue_succ_cons]
  | harr xs ih =>
    intro h fuel rest hf
    simp only [Json.representable, representableList_iff] at h
    have hall : ∀ x ∈ xs, ParsesBack x := fun x hx => ih x hx (h x hx)
    cases fuel with
    | zero => simp [Json.tokens] at hf
    | succ f =>
      simp only [Json.tokens, List.length_cons, Nat.add_le_add_iff_right] at hf
      simp only [Json.tokens, List.cons_append]
      rw [parseValue_succ_cons]
      cases xs with
      | nil => simp [elementTokens, startsWithRbrack]
      | cons x xs =>
        simp only [elementTokens] at hf ⊢
        rw [List.append_assoc, startsWithRbrack_tokens, ← List.append_assoc,
          parseElements_tokens xs x hall f rest hf]
        simp
  | hobj ms ih =>
    intro h fuel rest hf
    rw [representable_obj_iff] at h
    have hall : ∀ p ∈ ms, ParsesBack p.2 := fun p hp => ih p hp (h.2 p hp)
    cases fuel with
    | zero => simp [Json.tokens] at hf
    | succ f =>
      simp only [Json.tokens, List.length_cons, Nat.add_le_add_iff_right] at hf
      simp only [Json.tokens, List.cons_append]
      rw [parseValue_succ_cons]
      cases ms with
      | nil => simp [memberTokens, startsWithRbrace]
      | cons p ms =>
        obtain ⟨k, v⟩ := p
        rw [parseMembers_tokens ms k v hall f rest hf]
        have hcopy := copyDataProperties_ordered ((k, v) :: ms) [] (by simpa using h.1)
        simp only [List.nil_append] at hcopy
        simp [memberTokens, startsWithRbrace, hcopy]

theorem renderTokens_length_lt (v : Json) :
    (renderTokens v.tokens).length < (JSON.stringify v).length + 1 := by
  simp [JSON.stringify, String.length]

/-- Round trip: parsing the serialization of a representable value gives the value back. -/
theorem parse_stringify (v : Json) (h : v.representable = true) :
    JSON.parse (JSON.stringify v) = .normal v := by
  unfold JSON.parse
  have hlex := lexTokens_renderTokens v.tokens ((JSON.stringify v).length + 1)
    (lexable_tokens v h) (renderTokens_length_lt v)
  have hdata : (JSON.stringify v).data = renderTokens v.tokens := rfl
  rw [hdata, hlex]
  have hp := parseValue_tokens v h (v.tokens.length + 1) [] (by omega)
  rw [List.append_nil] at hp
  simp only [hp]

theorem stringify_ne_empty (v : Json) : JSON.stringify v ≠ "" := by
  intro h
  have h1 : (JSON.stringify v).data = renderTokens v.tokens := rfl
  rw [h] at h1
  have h2 : (renderTokens v.tokens).length = 0 := by rw [← h1]; rfl
  cases v with
  | bool b => cases b <;> simp [Json.tokens, renderTokens, Token.render] at h2
  | null => simp [Json.tokens, renderTokens, Token.render] at h2
  | num n =>
    obtain ⟨c, cs, hc, _⟩ := numberToString_head n
    simp [Json.tokens, renderTokens, Token.render, hc] at h2
  | str s => simp [Json.tokens, renderTokens, Token.render] at h2
  | arr xs => simp [Json.tokens, renderTokens, Token.render] at h2
  | obj ms => simp [Json.tokens, renderTokens, Token.render] at h2

namespace ClientDB

theorem getStoredData_of_text (self : ClientDB) (w : Window) (text : String)
    (h : self.storedText w = some text) (hne : text ≠ "") :
    self.getStoredData w = ⟨JSON.parse text, w⟩ := by
  unfold storedText at h
  unfold getStoredData
  simp only [h, hne, ne_eq, not_false_eq_true, if_true]

theorem getStoredData_of_absent (self : ClientDB) (w : Window)
    (h : self.storedText w = none) : self.getStoredData w = ⟨.normal .null, w⟩ := by
  unfold storedText at h
  unfold getStoredData
  simp only [h]

theorem getDb_of_stored (self : ClientDB) (w : Window) (v : Json)
    (hv : v.representable = true) (h : self.storedText w = some (JSON.stringify v)) :
    self.getDb w = ⟨.normal v, w⟩ := by
  unfold getDb
  rw [getStoredData_of_text self w _ h (stringify_ne_empty v), parse_stringify v hv]

theorem session_ne_local : ¬ ("session" = "local") := by decide

theorem setData_spec (self : ClientDB) (data : Json) (w : Window)
    (htype : self.type = "local" ∨ self.type = "session") :
    (self.setData data w).completion = .normal () ∧
      self.storedText (self.setData data w).window = some (JSON.stringify data) := by
  rcases htype with h | h
  · simp [setData, storedText, h, Storage.setItem, Storage.getItem]
  · simp [setData, storedText, h, Storage.setItem, Storage.getItem, session_ne_local]

theorem clearStorage_spec (self : ClientDB) (w : Window)
    (htype : self.type = "local" ∨ self.type = "session") :
    (self.clearStorage w).completion = .normal () ∧
      self.storedText (self.clearStorage w).window = none := by
  rcases htype with h | h
  · simp [clearStorage, storedText, h, Storage.removeItem, Storage.getItem]
  · simp [clearStorage, storedText, h, Storage.removeItem, Storage.getItem, session_ne_local]

theorem insert_of_getDb (self : ClientDB) (w : Window) (existing P : Members)
    (h : self.getDb w = ⟨.normal (.obj existing), w⟩) :
    self.insert (.obj P) w =
      self.setData (.obj (copyDataProperties (copyDataProperties [] existing) P)) w := by
  unfold insert
  rw [h]
  rfl

theorem insert_of_absent (self : ClientDB) (w : Window) (P : Members)
    (h : self.storedText w = none) :
    self.insert (.obj P) w = self.setData (.obj (copyDataProperties [] P)) w := by
  unfold insert getDb
  rw [getStoredData_of_absent self w h]
  rfl

/-- What `insert` does when the slot holds a mapping: it stores the spread of the mapping
and the patch. -/
theorem insert_stored (self : ClientDB) (w : Window) (M P : Members)
    (htype : self.type = "local" ∨ self.type = "session")
    (hM : (Json.obj M).representable = true)
    (hslot : self.storedText w = some (JSON.stringify (.obj M))) :
    (self.insert (.obj P) w).completion = .normal () ∧
      self.storedText (self.insert (.obj P) w).window =
        some (JSON.stringify (.obj (copyDataProperties M P))) := by
  have hget := getDb_of_stored self w _ hM hslot
  rw [insert_of_getDb self w M P hget]
  have hcopy : copyDataProperties [] M = M := by
    have := copyDataProperties_ordered M [] (by simpa using ((representable_obj_iff M).mp hM).1)
    simpa using this
  rw [hcopy]
  exact setData_spec self _ w htype

theorem getOwn_copy_of_representable (M P : Members) (hP : (Json.obj P).representable = true)
    (k : String) : getOwn k (copyDataProperties M P) = mergeSpec (getOwn · M) (getOwn · P) k := by
  have hnd := pairwise_keyBefore_nodup _ ((representable_obj_iff P).mp hP).1
  rw [getOwn_copyDataProperties P M hnd k]
  rfl

end ClientDB

/-- Claim C1. With a recognised type and a slot holding the serialization of a mapping `M`,
`insert(P)` completes and `getDb()` then returns a mapping whose keys are those of `M` and
of `P`, with `P`'s value at each key of `P` (whatever `M` held there) and `M`'s value at each
other key of `M`. -/
theorem insert_then_getDb (self : ClientDB) (w : Window) (M P : Members)
    (htype : self.type = "local" ∨ self.type = "session")
    (hM : (Json.obj M).representable = true) (hP : (Json.obj P).representable = true)
    (hslot : self.storedText w = some (JSON.stringify (.obj M))) :
    (self.insert (.obj P) w).completion = .normal () ∧
    ∃ R, (self.getDb (self.insert (.obj P) w).window).completion = .normal (.obj R) ∧
      (∀ k, k ∈ keysOf R ↔ k ∈ keysOf M ∨ k ∈ keysOf P) ∧
      (∀ k, k ∈ keysOf P → getOwn k R = getOwn k P) ∧
      (∀ k, k ∈ keysOf M → k ∉ keysOf P → getOwn k R = getOwn k M) := by
  obtain ⟨h1, h2⟩ := ClientDB.insert_stored self w M P htype hM hslot
  refine ⟨h1, copyDataProperties M P, ?_, ?_, ?_, ?_⟩
  · have hR := representable_copyDataProperties M P hM ((representable_obj_iff P).mp hP).2
    rw [ClientDB.getDb_of_stored self _ _ hR h2]
  · intro k
    exact keysOf_copyDataProperties P M k
  · intro k hk
    rw [ClientDB.getOwn_copy_of_representable M P hP k]
    simp only [mergeSpec]
    cases hg : getOwn k P with
    | some v => rfl
    | none => exact absurd hk ((getOwn_eq_none_iff k P).mp hg)
  · intro k _ hk
    rw [ClientDB.getOwn_copy_of_representable M P hP k]
    simp only [mergeSpec, (getOwn_eq_none_iff k P).mpr hk]

/-- Claim C1 at a concrete input: the slot holds one key, the patch overwrites it and adds
another. -/
theorem insert_then_getDb_witness :
    (localDb.insert (.obj [("a", .num 2), ("b", .str "x")]) (localWindow "\x7b\"a\":1\x7d")).completion
        = .normal () ∧
    ∃ R, (localDb.getDb (localDb.insert (.obj [("a", .num 2), ("b", .str "x")])
          (localWindow "\x7b\"a\":1\x7d")).window).completion = .normal (.obj R) ∧
      (∀ k, k ∈ keysOf R ↔ k ∈ keysOf [("a", .num 1)] ∨ k ∈ keysOf [("a", .num 2), ("b", .str "x")]) ∧
      (∀ k, k ∈ keysOf [("a", .num 2), ("b", .str "x")] →
        getOwn k R = getOwn k [("a", .num 2), ("b", .str "x")]) ∧
      (∀ k, k ∈ keysOf [("a", .num 1)] → k ∉ keysOf [("a", .num 2), ("b", .str "x")] →
        getOwn k R = getOwn k [("a", .num 1)]) :=
  insert_then_getDb localDb (localWindow "\x7b\"a\":1\x7d") [("a", .num 1)]
    [("a", .num 2), ("b", .str "x")] (Or.inl rfl) (by decide) (by decide) (by decide)

/-- Claim C2. With a recognised type, after `delete()` the call `getDb()` returns `null` and
`query(k)` returns `undefined` for every key, whatever the storage held. -/
theorem delete_then_reads (self : ClientDB) (w : Window)
    (htype : self.type = "local" ∨ self.type = "session") :
    (self.delete w).completion = .normal () ∧
    (self.getDb (self.delete w).window).completion = .normal .null ∧
    ∀ k, (self.query k (self.delete w).window).completion = .normal .undefined := by
  obtain ⟨h1, h2⟩ := ClientDB.clearStorage_spec self w htype
  have hget : self.getDb (self.delete w).window = ⟨.normal .null, (self.delete w).window⟩ :=
    ClientDB.getStoredData_of_absent self _ h2
  refine ⟨h1, by rw [hget], ?_⟩
  intro k
  unfold ClientDB.query
  rw [hget]
  rfl

/-- Claim C2 at a concrete input. -/
theorem delete_then_reads_witness :
    (localDb.delete (localWindow "\x7b\"a\":1\x7d")).completion = .normal () ∧
    (localDb.getDb (localDb.delete (localWindow "\x7b\"a\":1\x7d")).window).completion
      = .normal .null ∧
    ∀ k, (localDb.query k (localDb.delete (localWindow "\x7b\"a\":1\x7d")).window).completion
      = .normal .undefined :=
  delete_then_reads localDb (localWindow "\x7b\"a\":1\x7d") (Or.inl rfl)

/-- Claim C3. With a recognised type and no entry under the name in the selected area,
the constructor returns the instance and writes an entry such that `getDb()` returns the
empty object (not `null`). -/
theorem constructor_creates_empty (name type : String) (w : Window)
    (htype : type = "local" ∨ type = "session")
    (habsent : (ClientDB.mk name type).storedText w = none) :
    (ClientDB.constructor name type w).completion = .normal ⟨name, type⟩ ∧
    (ClientDB.mk name type).storedText (ClientDB.constructor name type w).window
      = some (JSON.stringify (.obj [])) ∧
    ((ClientDB.mk name type).getDb (ClientDB.constructor name type w).window).completion
      = .normal (.obj []) := by
  have hinit : (ClientDB.mk name type).initializeDatabase w
      = (ClientDB.mk name type).setData (.obj []) w := by
    unfold ClientDB.initializeDatabase ClientDB.isDatabaseExists
    rw [ClientDB.getStoredData_of_absent _ w habsent]
    rfl
  obtain ⟨h1, h2⟩ := ClientDB.setData_spec (ClientDB.mk name type) (.obj []) w htype
  have key : ∀ o : Outcome Unit, o.completion = .normal () →
      (match o with
        | ⟨.normal _, w1⟩ => (⟨.normal ⟨name, type⟩, w1⟩ : Outcome ClientDB)
        | ⟨.throw f, w1⟩ => ⟨.throw f, w1⟩) = ⟨.normal ⟨name, type⟩, o.window⟩ := by
    intro o ho
    obtain ⟨c, w'⟩ := o
    simp only at ho
    subst ho
    rfl
  have hcons : ClientDB.constructor name type w
      = ⟨.normal ⟨name, type⟩, ((ClientDB.mk name type).setData (.obj []) w).window⟩ := by
    unfold ClientDB.constructor
    simp only [hinit]
    exact key _ h1
  rw [hcons]
  exact ⟨rfl, h2, by rw [ClientDB.getDb_of_stored _ _ (.obj []) (by decide) h2]⟩

/-- Claim C3 at a concrete input: a session instance over empty storage. -/
theorem constructor_creates_empty_witness :
    (ClientDB.constructor "db" "session" emptyWindow).completion = .normal ⟨"db", "session"⟩ ∧
    (ClientDB.mk "db" "session").storedText (ClientDB.constructor "db" "session" emptyWindow).window
      = some (JSON.stringify (.obj [])) ∧
    ((ClientDB.mk "db" "session").getDb
      (ClientDB.constructor "db" "session" emptyWindow).window).completion = .normal (.obj []) :=
  constructor_creates_empty "db" "session" emptyWindow (Or.inr rfl) (by decide)

/-- Claim C4. With a recognised type and a slot holding the serialization of a mapping `M`
(the empty mapping included), the constructor leaves the storage state unchanged and
`getDb()` afterwards returns `M`. -/
theorem constructor_keeps_existing (name type : String) (w : Window) (M : Members)
    (hM : (Json.obj M).representable = true)
    (hslot : (ClientDB.mk name type).storedText w = some (JSON.stringify (.obj M))) :
    (ClientDB.constructor name type w).completion = .normal ⟨name, type⟩ ∧
    (ClientDB.constructor name type w).window = w ∧
    ((ClientDB.mk name type).getDb (ClientDB.constructor name type w).window).completion
      = .normal (.obj M) := by
  have hget := ClientDB.getDb_of_stored (ClientDB.mk name type) w _ hM hslot
  have hinit : (ClientDB.mk name type).initializeDatabase w = ⟨.normal (), w⟩ := by
    unfold ClientDB.initializeDatabase ClientDB.isDatabaseExists
    unfold ClientDB.getDb at hget
    rw [hget]
    rfl
  have hcons : ClientDB.constructor name type w = ⟨.normal ⟨name, type⟩, w⟩ := by
    unfold ClientDB.constructor
    simp only [hinit]
  rw [hcons]
  exact ⟨rfl, rfl, by rw [hget]⟩

/-- Claim C4 at a concrete input. -/
theorem constructor_keeps_existing_witness :
    (ClientDB.constructor "db" "local" (localWindow "\x7b\"a\":1\x7d")).completion
      = .normal ⟨"db", "local"⟩ ∧
    (ClientDB.constructor "db" "local" (localWindow "\x7b\"a\":1\x7d")).window
      = localWindow "\x7b\"a\":1\x7d" ∧
    ((ClientDB.mk "db" "local").getDb
      (ClientDB.constructor "db" "local" (localWindow "\x7b\"a\":1\x7d")).window).completion
      = .normal (.obj [("a", .num 1)]) :=
  constructor_keeps_existing "db" "local" (localWindow "\x7b\"a\":1\x7d") [("a", .num 1)]
    (by decide) (by decide)

/-- What `query` does on a slot holding a mapping: the value of an own key; for a key that
is not an own key, `undefined` unless `Object.prototype` has a property of that name. -/
theorem query_of_stored (self : ClientDB) (w : Window) (M : Members) (k : String)
    (hM : (Json.obj M).representable = true)
    (hslot : self.storedText w = some (JSON.stringify (.obj M))) :
    (self.query k w).completion =
      match getOwn k M with
      | some v => .normal (.value v)
      | none => if objectPrototypeKeys.contains k then .normal (.inherited k)
                else .normal .undefined := by
  unfold ClientDB.query
  rw [ClientDB.getDb_of_stored self w _ hM hslot]
  simp only [Json.truthy, if_true, readProperty]
  cases getOwn k M with
  | some v => rfl
  | none =>
    simp only [inheritedRead, List.contains_nil, Bool.false_or]
    split_ifs <;> rfl

/-- Claim C5 (the code departs from it). With the slot holding the empty mapping,
`query("toString")` does not return `undefined`: the read `data[key]` finds the method that
every object inherits from `Object.prototype`. -/
theorem query_inherited_key :
    (localDb.query "toString" (localWindow "\x7b\x7d")).completion
      = .normal (.inherited "toString") ∧
    (localDb.query "constructor" (localWindow "\x7b\x7d")).completion
      = .normal (.inherited "constructor") ∧
    (localDb.query "__proto__" (localWindow "\x7b\x7d")).completion
      = .normal (.inherited "__proto__") := by
  refine ⟨?_, ?_, ?_⟩ <;> rfl

/-- Claim C6 (the code departs from it). The constructor accepts a type selector that is
neither `"local"` nor `"session"`: it completes normally, returns an instance and writes
nothing. -/
theorem constructor_accepts_unknown_type :
    (ClientDB.constructor "db" "indexeddb" emptyWindow).completion
      = .normal ⟨"db", "indexeddb"⟩ ∧
    (ClientDB.constructor "db" "indexeddb" emptyWindow).window = emptyWindow := by
  constructor <;> rfl

/-- Claim C7 as stated fails. A slot holding the text of an array makes `getDb()` return
that array and `query` read from it, without any error; a slot holding malformed text
makes both throw the `SyntaxError` of `JSON.parse`. -/
theorem getDb_returns_non_mapping :
    (localDb.getDb (localWindow "[1]")).completion = .normal (.arr [.num 1]) ∧
    (localDb.query "0" (localWindow "[1]")).completion = .normal (.value (.num 1)) ∧
    (localDb.getDb (localWindow "\x7b")).completion = .throw .syntaxError ∧
    (localDb.query "a" (localWindow "\x7b")).completion = .throw .syntaxError := by
  refine ⟨?_, ?_, ?_, ?_⟩ <;> rfl

/-- An entry with empty text reads as an absent slot: `rawData` is falsy, so `JSON.parse`
is not called. -/
theorem ClientDB.getStoredData_of_empty (self : ClientDB) (w : Window)
    (h : self.storedText w = some "") : self.getStoredData w = ⟨.normal .null, w⟩ := by
  unfold ClientDB.storedText at h
  unfold ClientDB.getStoredData
  simp only [h, ne_eq, not_true_eq_false, if_false]

/-- Claim C7, amended. When the slot holds text that does not decode to a mapping: if the
text is empty, it is treated as an absent slot, `getDb()` returns `null` and `query(k)`
returns `undefined`; otherwise, if `JSON.parse` throws its `SyntaxError`, `getDb()` and
`query(k)` throw that same fault to the caller, and if the text decodes to a value `v` (an
array or a primitive), `getDb()` returns `v` and `query(k)` returns `v[k]` when `v` is truthy
and `undefined` otherwise. The storage is left as it was in every case. -/
theorem getDb_query_non_mapping (self : ClientDB) (w : Window) (text : String)
    (hslot : self.storedText w = some text)
    (hnot : ∀ ms, JSON.parse text ≠ .normal (.obj ms)) :
    (text = "" →
      self.getDb w = ⟨.normal .null, w⟩ ∧
      ∀ k, self.query k w = ⟨.normal .undefined, w⟩) ∧
    (text ≠ "" →
      (JSON.parse text = .throw .syntaxError →
        self.getDb w = ⟨.throw .syntaxError, w⟩ ∧
        ∀ k, self.query k w = ⟨.throw .syntaxError, w⟩) ∧
      (∀ v, JSON.parse text = .normal v →
        (∀ ms, v ≠ .obj ms) ∧ self.getDb w = ⟨.normal v, w⟩ ∧
        ∀ k, self.query k w =
          ⟨if v.truthy then readProperty v k else .normal .undefined, w⟩)) := by
  constructor
  · intro he
    subst he
    have hget : self.getDb w = ⟨.normal .null, w⟩ :=
      ClientDB.getStoredData_of_empty self w hslot
    refine ⟨hget, ?_⟩
    intro k
    unfold ClientDB.query
    rw [hget]
    rfl
  · intro hne
    have hget : self.getDb w = ⟨JSON.parse text, w⟩ :=
      ClientDB.getStoredData_of_text self w text hslot hne
    constructor
    · intro hp
      rw [hp] at hget
      refine ⟨hget, ?_⟩
      intro k
      unfold ClientDB.query
      rw [hget]
    · intro v hp
      rw [hp] at hget
      refine ⟨?_, hget, ?_⟩
      · intro ms hv
        exact hnot ms (by rw [hp, hv])
      · intro k
        unfold ClientDB.query
        rw [hget]
        cases hv : v.truthy <;> simp [hv]

/-- The text `[1]` decodes to an array. -/
theorem parse_array_example : JSON.parse "[1]" = .normal (.arr [.num 1]) := by rfl

/-- The empty text does not decode. -/
theorem parse_empty : JSON.parse "" = .throw .syntaxError := by rfl

/-- The text of a lone opening brace does not decode. -/
theorem parse_brace_example : JSON.parse "\x7b" = .throw .syntaxError := by rfl

/-- Claim C7, amended, at concrete inputs: the slot holds the text of an array, the empty
text, and a lone opening brace. -/
theorem getDb_query_non_mapping_witness :
    (localDb.getDb (localWindow "[1]") = ⟨.normal (.arr [.num 1]), localWindow "[1]"⟩ ∧
      ∀ k, localDb.query k (localWindow "[1]") =
        ⟨if (Json.arr [.num 1]).truthy then readProperty (.arr [.num 1]) k
          else .normal .undefined, localWindow "[1]"⟩) ∧
    (localDb.getDb (localWindow "") = ⟨.normal .null, localWindow ""⟩ ∧
      ∀ k, localDb.query k (localWindow "") = ⟨.normal .undefined, localWindow ""⟩) ∧
    (localDb.getDb (localWindow "\x7b") = ⟨.throw .syntaxError, localWindow "\x7b"⟩ ∧
      ∀ k, localDb.query k (localWindow "\x7b") = ⟨.throw .syntaxError, localWindow "\x7b"⟩) :=
  ⟨((getDb_query_non_mapping localDb (localWindow "[1]") "[1]" (by decide)
      (fun ms h => by rw [parse_array_example] at h; cases h)).2 (by decide)).2
        (.arr [.num 1]) parse_array_example |>.2,
   (getDb_query_non_mapping localDb (localWindow "") "" (by decide)
      (fun ms h => by rw [parse_empty] at h; cases h)).1 rfl,
   ((getDb_query_non_mapping localDb (localWindow "\x7b") "\x7b" (by decide)
      (fun ms h => by rw [parse_brace_example] at h; cases h)).2 (by decide)).1
        parse_brace_example⟩

/-- Claim C8. With a recognised type and an absent slot, `insert(P)` completes, recreates
the slot and `getDb()` then returns exactly `P`; this holds in particular in the state
`delete()` leaves, so the instance stays usable after deletion. -/
theorem insert_when_absent (self : ClientDB) (w : Window) (P : Members)
    (htype : self.type = "local" ∨ self.type = "session")
    (hP : (Json.obj P).representable = true) :
    (self.storedText w = none →
      (self.insert (.obj P) w).completion = .normal () ∧
      self.storedText (self.insert (.obj P) w).window = some (JSON.stringify (.obj P)) ∧
      (self.getDb (self.insert (.obj P) w).window).completion = .normal (.obj P)) ∧
    ((self.insert (.obj P) (self.delete w).window).completion = .normal () ∧
      (self.getDb (self.insert (.obj P) (self.delete w).window).window).completion
        = .normal (.obj P)) := by
  have hcopy : copyDataProperties [] P = P := by
    have := copyDataProperties_ordered P [] (by simpa using ((representable_obj_iff P).mp hP).1)
    simpa using this
  have main : ∀ w', self.storedText w' = none →
      (self.insert (.obj P) w').completion = .normal () ∧
      self.storedText (self.insert (.obj P) w').window = some (JSON.stringify (.obj P)) ∧
      (self.getDb (self.insert (.obj P) w').window).completion = .normal (.obj P) := by
    intro w' habsent
    rw [ClientDB.insert_of_absent self w' P habsent, hcopy]
    obtain ⟨h1, h2⟩ := ClientDB.setData_spec self (.obj P) w' htype
    exact ⟨h1, h2, by rw [ClientDB.getDb_of_stored self _ _ hP h2]⟩
  refine ⟨main w, ?_⟩
  have := main (self.delete w).window (ClientDB.clearStorage_spec self w htype).2
  exact ⟨this.1, this.2.2⟩

/-- Claim C8 at a concrete input: a session instance, a patch with a nested array. -/
theorem insert_when_absent_witness :
    ((ClientDB.mk "db" "session").storedText emptyWindow = none →
      ((ClientDB.mk "db" "session").insert (.obj [("a", .arr [.num 1, .null])]) emptyWindow).completion
        = .normal () ∧
      (ClientDB.mk "db" "session").storedText
        ((ClientDB.mk "db" "session").insert (.obj [("a", .arr [.num 1, .null])]) emptyWindow).window
        = some (JSON.stringify (.obj [("a", .arr [.num 1, .null])])) ∧
      ((ClientDB.mk "db" "session").getDb
        ((ClientDB.mk "db" "session").insert (.obj [("a", .arr [.num 1, .null])]) emptyWindow).window).completion
        = .normal (.obj [("a", .arr [.num 1, .null])])) ∧
    (((ClientDB.mk "db" "session").insert (.obj [("a", .arr [.num 1, .null])])
        ((ClientDB.mk "db" "session").delete emptyWindow).window).completion = .normal () ∧
      ((ClientDB.mk "db" "session").getDb
        ((ClientDB.mk "db" "session").insert (.obj [("a", .arr [.num 1, .null])])
          ((ClientDB.mk "db" "session").delete emptyWindow).window).window).completion
        = .normal (.obj [("a", .arr [.num 1, .null])])) :=
  insert_when_absent (ClientDB.mk "db" "session") emptyWindow [("a", .arr [.num 1, .null])]
    (Or.inr rfl) (by decide)

/-- With a stored mapping the constructor returns the instance and writes nothing. -/
theorem ClientDB.constructor_of_stored (name type : String) (w : Window) (M : Members)
    (hM : (Json.obj M).representable = true)
    (hslot : (ClientDB.mk name type).storedText w = some (JSON.stringify (.obj M))) :
    ClientDB.constructor name type w = ⟨.normal ⟨name, type⟩, w⟩ := by
  have hget := ClientDB.getDb_of_stored (ClientDB.mk name type) w _ hM hslot
  have hinit : (ClientDB.mk name type).initializeDatabase w = ⟨.normal (), w⟩ := by
    unfold ClientDB.initializeDatabase ClientDB.isDatabaseExists
    unfold ClientDB.getDb at hget
    rw [hget]
    rfl
  unfold ClientDB.constructor
  simp only [hinit]

/-- What a second instance reads from a slot that holds the mapping `R`: `getDb()` gives
`R`, `query(k)` the value of the own key `k` (for other keys the inherited member or
`undefined`), and constructing the instance again writes nothing. -/
theorem ClientDB.reads_of_stored (self : ClientDB) (w : Window) (R : Members)
    (hR : (Json.obj R).representable = true)
    (hslot : self.storedText w = some (JSON.stringify (.obj R))) :
    (self.getDb w).completion = .normal (.obj R) ∧
    (∀ k, (self.query k w).completion =
      match getOwn k R with
      | some v => .normal (.value v)
      | none => if objectPrototypeKeys.contains k then .normal (.inherited k)
                else .normal .undefined) ∧
    ClientDB.constructor self.dbName self.type w = ⟨.normal self, w⟩ := by
  refine ⟨by rw [ClientDB.getDb_of_stored self w _ hR hslot],
    fun k => query_of_stored self w R k hR hslot, ?_⟩
  exact ClientDB.constructor_of_stored self.dbName self.type w R hR hslot

/-- Claim C9. Two instances `A` and `B` with the same name and the same type read the same
results in every storage state. After `A.insert(P)` on a slot holding a mapping `M`,
`B.getDb()` returns the merged mapping and `B.query(k)` returns `P`'s value for a key of `P`
and `M`'s value for another key of `M`; after `A.insert(P)` on an absent slot `B` reads `P`.
Constructing `B` after the insert writes nothing, so the write is not reset. The class keeps
only the name and the type (no cached data), and every read goes to storage. -/
theorem reads_shared_between_instances (A B : ClientDB) (hname : A.dbName = B.dbName)
    (htype : A.type = B.type) (w : Window) (P : Json) :
    B.getDb (A.insert P w).window = A.getDb (A.insert P w).window ∧
    (∀ k, B.query k (A.insert P w).window = A.query k (A.insert P w).window) ∧
    (∀ w', B.getDb w' = A.getDb w' ∧ ∀ k, B.query k w' = A.query k w') ∧
    (∀ M Pm, (A.type = "local" ∨ A.type = "session") → (Json.obj M).representable = true →
      (Json.obj Pm).representable = true → A.storedText w = some (JSON.stringify (.obj M)) →
      P = .obj Pm →
      (B.getDb (A.insert P w).window).completion = .normal (.obj (copyDataProperties M Pm)) ∧
      (∀ k, (B.query k (A.insert P w).window).completion =
        match mergeSpec (fun q => getOwn q M) (fun q => getOwn q Pm) k with
        | some v => .normal (.value v)
        | none => if objectPrototypeKeys.contains k then .normal (.inherited k)
                  else .normal .undefined) ∧
      ClientDB.constructor B.dbName B.type (A.insert P w).window
        = ⟨.normal B, (A.insert P w).window⟩) ∧
    (∀ Pm, (A.type = "local" ∨ A.type = "session") → (Json.obj Pm).representable = true →
      A.storedText w = none → P = .obj Pm →
      (B.getDb (A.insert P w).window).completion = .normal (.obj Pm) ∧
      (∀ k, (B.query k (A.insert P w).window).completion =
        match getOwn k Pm with
        | some v => .normal (.value v)
        | none => if objectPrototypeKeys.contains k then .normal (.inherited k)
                  else .normal .undefined) ∧
      ClientDB.constructor B.dbName B.type (A.insert P w).window
        = ⟨.normal B, (A.insert P w).window⟩) := by
  have hAB : A = B := by
    cases A
    cases B
    simp only at hname htype
    subst hname htype
    rfl
  subst hAB
  refine ⟨rfl, fun _ => rfl, fun _ => ⟨rfl, fun _ => rfl⟩, ?_, ?_⟩
  · intro M Pm ht hM hPm hslot hP
    subst hP
    obtain ⟨_, h2⟩ := ClientDB.insert_stored A w M Pm ht hM hslot
    have hR := representable_copyDataProperties M Pm hM ((representable_obj_iff Pm).mp hPm).2
    obtain ⟨r1, r2, r3⟩ := ClientDB.reads_of_stored A _ _ hR h2
    refine ⟨r1, ?_, r3⟩
    intro k
    rw [r2 k, ClientDB.getOwn_copy_of_representable M Pm hPm k]
  · intro Pm ht hPm habsent hP
    subst hP
    have hcopy : copyDataProperties [] Pm = Pm := by
      have := copyDataProperties_ordered Pm []
        (by simpa using ((representable_obj_iff Pm).mp hPm).1)
      simpa using this
    have h2 : A.storedText (A.insert (.obj Pm) w).window = some (JSON.stringify (.obj Pm)) := by
      rw [ClientDB.insert_of_absent A w Pm habsent, hcopy]
      exact (ClientDB.setData_spec A (.obj Pm) w ht).2
    exact ClientDB.reads_of_stored A _ _ hPm h2

/-- Claim C9 at a concrete input: a second instance named `"db"` on local storage; the slot
holds the key `a`, the first instance inserts the key `b`, the second one reads both. -/
theorem reads_shared_between_instances_witness :
    ((ClientDB.mk "db" "local").getDb
        (localDb.insert (.obj [("b", .num 2)]) (localWindow "\x7b\"a\":1\x7d")).window).completion
      = .normal (.obj [("a", .num 1), ("b", .num 2)]) ∧
    ((ClientDB.mk "db" "local").query "b"
        (localDb.insert (.obj [("b", .num 2)]) (localWindow "\x7b\"a\":1\x7d")).window).completion
      = .normal (.value (.num 2)) ∧
    ((ClientDB.mk "db" "local").query "a"
        (localDb.insert (.obj [("b", .num 2)]) (localWindow "\x7b\"a\":1\x7d")).window).completion
      = .normal (.value (.num 1)) ∧
    ClientDB.constructor "db" "local"
        (localDb.insert (.obj [("b", .num 2)]) (localWindow "\x7b\"a\":1\x7d")).window
      = ⟨.normal (ClientDB.mk "db" "local"),
          (localDb.insert (.obj [("b", .num 2)]) (localWindow "\x7b\"a\":1\x7d")).window⟩ ∧
    ((ClientDB.mk "db" "local").getDb
        (localDb.insert (.obj [("b", .num 2)]) emptyWindow).window).completion
      = .normal (.obj [("b", .num 2)]) ∧
    (∀ w', (ClientDB.mk "db" "local").getDb w' = localDb.getDb w' ∧
      ∀ k, (ClientDB.mk "db" "local").query k w' = localDb.query k w') :=
  have h := reads_shared_between_instances localDb (ClientDB.mk "db" "local") rfl rfl
    (localWindow "\x7b\"a\":1\x7d") (.obj [("b", .num 2)])
  have h4 := h.2.2.2.1 [("a", .num 1)] [("b", .num 2)] (Or.inl rfl) (by decide) (by decide)
    (by decide) rfl
  have h5 := (reads_shared_between_instances localDb (ClientDB.mk "db" "local") rfl rfl
    emptyWindow (.obj [("b", .num 2)])).2.2.2.2 [("b", .num 2)] (Or.inl rfl) (by decide)
    (by decide) rfl
  ⟨h4.1, h4.2.1 "b", h4.2.1 "a", h4.2.2, h5.1, h.2.2.1⟩

/-- Claim C10. With a recognised type and a slot holding the serialization of a mapping
`M`, `insert(P1)` followed by `insert(P2)` leaves the slot holding the serialization of a
mapping that is `merge(merge(M, P1), P2)`: a key of `P2` has `P2`'s value, another key of
`P1` has `P1`'s value, every other key has `M`'s value. -/
theorem insert_twice_merges (self : ClientDB) (w : Window) (M P1 P2 : Members)
    (htype : self.type = "local" ∨ self.type = "session")
    (hM : (Json.obj M).representable = true) (hP1 : (Json.obj P1).representable = true)
    (hP2 : (Json.obj P2).representable = true)
    (hslot : self.storedText w = some (JSON.stringify (.obj M))) :
    ∃ R, self.storedText (self.insert (.obj P2) (self.insert (.obj P1) w).window).window
        = some (JSON.stringify (.obj R)) ∧
      (self.getDb (self.insert (.obj P2) (self.insert (.obj P1) w).window).window).completion
        = .normal (.obj R) ∧
      (fun k => getOwn k R)
        = mergeSpec (mergeSpec (fun k => getOwn k M) (fun k => getOwn k P1)) (fun k => getOwn k P2) ∧
      (∀ k, k ∈ keysOf R ↔ k ∈ keysOf M ∨ k ∈ keysOf P1 ∨ k ∈ keysOf P2) := by
  obtain ⟨_, h1⟩ := ClientDB.insert_stored self w M P1 htype hM hslot
  have hR1 := representable_copyDataProperties M P1 hM ((representable_obj_iff P1).mp hP1).2
  obtain ⟨_, h2⟩ := ClientDB.insert_stored self _ (copyDataProperties M P1) P2 htype hR1 h1
  have hR2 := representable_copyDataProperties (copyDataProperties M P1) P2 hR1
    ((representable_obj_iff P2).mp hP2).2
  refine ⟨copyDataProperties (copyDataProperties M P1) P2, h2, ?_, ?_, ?_⟩
  · rw [ClientDB.getDb_of_stored self _ _ hR2 h2]
  · funext k
    rw [ClientDB.getOwn_copy_of_representable _ P2 hP2 k]
    simp only [mergeSpec]
    rw [ClientDB.getOwn_copy_of_representable M P1 hP1 k]
    rfl
  · intro k
    rw [keysOf_copyDataProperties, keysOf_copyDataProperties]
    tauto

/-- Claim C10 at a concrete input: the key `a` is in the slot and in both patches. -/
theorem insert_twice_merges_witness :
    ∃ R, localDb.storedText (localDb.insert (.obj [("a", .num 3), ("c", .null)])
          (localDb.insert (.obj [("a", .num 2), ("b", .bool true)])
            (localWindow "\x7b\"a\":1,\"m\":\"x\"\x7d")).window).window
        = some (JSON.stringify (.obj R)) ∧
      (localDb.getDb (localDb.insert (.obj [("a", .num 3), ("c", .null)])
          (localDb.insert (.obj [("a", .num 2), ("b", .bool true)])
            (localWindow "\x7b\"a\":1,\"m\":\"x\"\x7d")).window).window).completion
        = .normal (.obj R) ∧
      (fun k => getOwn k R)
        = mergeSpec (mergeSpec (fun k => getOwn k [("a", .num 1), ("m", .str "x")])
            (fun k => getOwn k [("a", .num 2), ("b", .bool true)]))
            (fun k => getOwn k [("a", .num 3), ("c", .null)]) ∧
      (∀ k, k ∈ keysOf R ↔ k ∈ keysOf [("a", .num 1), ("m", .str "x")] ∨
        k ∈ keysOf [("a", .num 2), ("b", .bool true)] ∨ k ∈ keysOf [("a", .num 3), ("c", .null)]) :=
  insert_twice_merges localDb (localWindow "\x7b\"a\":1,\"m\":\"x\"\x7d")
    [("a", .num 1), ("m", .str "x")] [("a", .num 2), ("b", .bool true)]
    [("a", .num 3), ("c", .null)] (Or.inl rfl) (by decide) (by decide) (by decide) (by decide)

/-! ## Idempotence, purity, invariant and frame -/

namespace ClientDB

theorem getStoredData_window (self : ClientDB) (w : Window) :
    (self.getStoredData w).window = w := by
  unfold getStoredData
  simp only
  generalize (if self.type = "local" then w.localStorage.getItem self.dbName
    else w.sessionStorage.getItem self.dbName) = r
  cases r with
  | none => rfl
  | some text => simp only; split_ifs <;> rfl

theorem query_window (self : ClientDB) (key : String) (w : Window) :
    (self.query key w).window = w := by
  have h := getStoredData_window self w
  unfold query getDb
  generalize self.getStoredData w = o at h
  obtain ⟨c, w1⟩ := o
  simp only at h
  subst h
  cases c with
  | normal data => cases hd : data.truthy <;> simp [hd]
  | throw f => rfl

theorem isDatabaseExists_window (self : ClientDB) (w : Window) :
    (self.isDatabaseExists w).window = w := by
  have h := getStoredData_window self w
  unfold isDatabaseExists
  generalize self.getStoredData w = o at h
  obtain ⟨c, w1⟩ := o
  simp only at h
  subst h
  cases c <;> rfl

/-- The window after `insert` is the window before, or the one a `setData` leaves. -/
theorem insert_window (self : ClientDB) (data : Json) (w : Window) :
    (self.insert data w).window = w ∨ ∃ d, (self.insert data w).window = (self.setData d w).window := by
  have h := getStoredData_window self w
  unfold insert getDb
  generalize self.getStoredData w = o at h
  obtain ⟨c, w1⟩ := o
  simp only at h
  subst h
  cases c with
  | throw f => exact Or.inl rfl
  | normal existingData =>
    simp only
    cases ownEnumerable existingData with
    | error f => exact Or.inl rfl
    | ok existing =>
      simp only
      cases ownEnumerable data with
      | error f => exact Or.inl rfl
      | ok patch => exact Or.inr ⟨_, rfl⟩

theorem initializeDatabase_window (self : ClientDB) (w : Window) :
    (self.initializeDatabase w).window = w ∨
      (self.initializeDatabase w).window = (self.setData (.obj []) w).window := by
  have h := isDatabaseExists_window self w
  unfold initializeDatabase
  generalize self.isDatabaseExists w = o at h
  obtain ⟨c, w1⟩ := o
  simp only at h
  subst h
  cases c with
  | throw f => exact Or.inl rfl
  | normal b =>
    cases b with
    | true => exact Or.inl rfl
    | false => exact Or.inr rfl

/-- The window after the constructor is the window before, or the one `setData` leaves. -/
theorem constructor_window (name type : String) (w : Window) :
    (ClientDB.constructor name type w).window = w ∨
      (ClientDB.constructor name type w).window
        = ((ClientDB.mk name type).setData (.obj []) w).window := by
  have h : (ClientDB.constructor name type w).window
      = ((ClientDB.mk name type).initializeDatabase w).window := by
    simp only [ClientDB.constructor]
    generalize (ClientDB.mk name type).initializeDatabase w = o
    obtain ⟨c, w1⟩ := o
    cases c <;> rfl
  rw [h]
  exact initializeDatabase_window _ w

theorem framePreserved_refl (self : ClientDB) (w : Window) : self.FramePreserved w w :=
  ⟨fun _ => ⟨rfl, fun _ _ => rfl⟩, fun _ => ⟨rfl, fun _ _ => rfl⟩⟩

theorem framePreserved_setData (self : ClientDB) (d : Json) (w : Window) :
    self.FramePreserved w (self.setData d w).window := by
  constructor
  · intro h
    simp only [setData, h, if_true, true_and]
    intro k hk
    simp [Storage.setItem, hk]
  · intro h
    simp only [setData, h, session_ne_local, if_false, if_true, true_and]
    intro k hk
    simp [Storage.setItem, hk]

theorem framePreserved_clearStorage (self : ClientDB) (w : Window) :
    self.FramePreserved w (self.clearStorage w).window := by
  constructor
  · intro h
    simp only [clearStorage, h, if_true, true_and]
    intro k hk
    simp [Storage.removeItem, hk]
  · intro h
    simp only [clearStorage, h, session_ne_local, if_false, if_true, true_and]
    intro k hk
    simp [Storage.removeItem, hk]

theorem clearStorage_completion (self : ClientDB) (w : Window) :
    (self.clearStorage w).completion = .normal () := by
  unfold clearStorage
  split_ifs <;> rfl

theorem setData_completion (self : ClientDB) (d : Json) (w : Window) :
    (self.setData d w).completion = .normal () := by
  unfold setData
  simp only
  split_ifs <;> rfl

theorem clearStorage_twice (self : ClientDB) (w : Window) :
    (self.clearStorage (self.clearStorage w).window).window = (self.clearStorage w).window := by
  unfold clearStorage
  by_cases h1 : self.type = "local"
  · simp only [h1, if_true, Window.mk.injEq, and_true]
    funext k
    by_cases hk : k = self.dbName <;> simp [Storage.removeItem, hk]
  · by_cases h2 : self.type = "session"
    · simp only [h2, session_ne_local, if_false, if_true, Window.mk.injEq, true_and]
      funext k
      by_cases hk : k = self.dbName <;> simp [Storage.removeItem, hk]
    · simp only [h1, h2, if_false]

theorem clearStorage_of_absent (self : ClientDB) (w : Window) (h : self.storedText w = none) :
    (self.clearStorage w).window = w := by
  unfold storedText at h
  unfold clearStorage
  obtain ⟨l, s⟩ := w
  by_cases h1 : self.type = "local"
  · simp only [h1, if_true, Storage.getItem] at h
    simp only [h1, if_true, Window.mk.injEq, and_true]
    funext k
    by_cases hk : k = self.dbName
    · simp [Storage.removeItem, hk, h]
    · simp [Storage.removeItem, hk]
  · simp only [h1, if_false, Storage.getItem] at h
    by_cases h2 : self.type = "session"
    · simp only [h2, session_ne_local, if_false, if_true, Window.mk.injEq, true_and]
      funext k
      by_cases hk : k = self.dbName
      · simp [Storage.removeItem, hk, h]
      · simp [Storage.removeItem, hk]
    · simp only [h1, h2, if_false]

theorem setData_twice (self : ClientDB) (d1 d2 : Json) (w : Window) :
    (self.setData d2 (self.setData d1 w).window).window = (self.setData d2 w).window := by
  unfold setData
  by_cases h1 : self.type = "local"
  · simp only [h1, if_true, Window.mk.injEq, and_true]
    funext k
    by_cases hk : k = self.dbName <;> simp [Storage.setItem, hk]
  · by_cases h2 : self.type = "session"
    · simp only [h2, session_ne_local, if_false, if_true, Window.mk.injEq, true_and]
      funext k
      by_cases hk : k = self.dbName <;> simp [Storage.setItem, hk]
    · simp only [h1, h2, if_false]

end ClientDB

/-- Claim C12. For every instance and storage state, `delete()` completes without error, a
second `delete()` leaves the storage state the first one left, and `delete()` on an absent
slot leaves the storage state as it was. -/
theorem delete_idempotent (self : ClientDB) (w : Window) :
    (self.delete w).completion = .normal () ∧
    (self.delete (self.delete w).window).completion = .normal () ∧
    (self.delete (self.delete w).window).window = (self.delete w).window ∧
    (self.storedText w = none → (self.delete w).window = w) :=
  ⟨ClientDB.clearStorage_completion self w, ClientDB.clearStorage_completion self _,
    ClientDB.clearStorage_twice self w, ClientDB.clearStorage_of_absent self w⟩

/-- Claim C13. For every instance, key and storage state, `getDb()` and `query(k)` leave
both storage areas exactly as they were, whether they return or throw. -/
theorem reads_are_pure (self : ClientDB) (key : String) (w : Window) :
    (self.getDb w).window = w ∧ (self.query key w).window = w :=
  ⟨ClientDB.getStoredData_window self w, ClientDB.query_window self key w⟩

/-- Claim C17. Construction, `insert` (with any argument) and `delete` keep the frame: for
type `"local"` they leave session storage and every local entry under another key
unchanged, for type `"session"` local storage and every session entry under another key. -/
theorem writes_keep_frame (self : ClientDB) (data : Json) (w : Window) :
    self.FramePreserved w (ClientDB.constructor self.dbName self.type w).window ∧
    self.FramePreserved w (self.insert data w).window ∧
    self.FramePreserved w (self.delete w).window := by
  refine ⟨?_, ?_, ClientDB.framePreserved_clearStorage self w⟩
  · rcases ClientDB.constructor_window self.dbName self.type w with h | h
    · rw [h]; exact ClientDB.framePreserved_refl self w
    · rw [h]; exact ClientDB.framePreserved_setData self _ w
  · rcases ClientDB.insert_window self data w with h | ⟨d, h⟩
    · rw [h]; exact ClientDB.framePreserved_refl self w
    · rw [h]; exact ClientDB.framePreserved_setData self d w

theorem replaceOwn_same (k : String) (v : Json) (ms : Members) (h : getOwn k ms = some v) :
    replaceOwn k v ms = ms := by
  induction ms with
  | nil => rfl
  | cons p ms ih =>
    obtain ⟨k', v'⟩ := p
    by_cases hk : k' = k
    · subst hk
      simp only [getOwn, if_true, Option.some.injEq] at h
      simp [replaceOwn, h]
    · simp only [getOwn, hk, if_false] at h
      simp [replaceOwn, hk, ih h]

/-- Defining a key with the value it already has changes nothing. -/
theorem defineProp_same (ms : Members) (k : String) (v : Json) (h : getOwn k ms = some v) :
    defineProp ms k v = ms := by
  have hown : hasOwn k ms = true := by
    rw [← getOwn_isSome, h]
    rfl
  unfold defineProp
  simp only [hown, if_true]
  exact replaceOwn_same k v ms h

theorem copyDataProperties_same (P R : Members) (h : ∀ p ∈ P, getOwn p.1 R = some p.2) :
    copyDataProperties R P = R := by
  induction P with
  | nil => rfl
  | cons p P ih =>
    simp only [copyDataProperties, List.foldl_cons] at ih ⊢
    rw [defineProp_same R p.1 p.2 (h p (by simp))]
    exact ih (fun q hq => h q (by simp [hq]))

theorem getOwn_of_mem (P : Members) (hnd : (keysOf P).Nodup) (p : String × Json) (hp : p ∈ P) :
    getOwn p.1 P = some p.2 := by
  induction P with
  | nil => simp at hp
  | cons q P ih =>
    obtain ⟨k', v'⟩ := q
    simp only [keysOf, List.map_cons, List.nodup_cons] at hnd
    rcases List.mem_cons.mp hp with e | hp
    · subst e
      simp [getOwn]
    · have hne : ¬ k' = p.1 := by
        intro e
        apply hnd.1
        rw [e]
        exact List.mem_map_of_mem Prod.fst hp
      simp only [getOwn, hne, if_false]
      exact ih hnd.2 hp

/-- Spreading the same patch a second time changes nothing. -/
theorem copyDataProperties_idem (E P : Members) (hnd : (keysOf P).Nodup) :
    copyDataProperties (copyDataProperties E P) P = copyDataProperties E P := by
  apply copyDataProperties_same
  intro p hp
  rw [getOwn_copyDataProperties P E hnd p.1, getOwn_of_mem P hnd p hp]

theorem mem_indexedFrom (xs : List Json) : ∀ (i : Nat) (p : String × Json),
    p ∈ indexedFrom i xs → p.2 ∈ xs := by
  induction xs with
  | nil => intro i p hp; simp [indexedFrom] at hp
  | cons x xs ih =>
    intro i p hp
    simp only [indexedFrom, List.mem_cons] at hp ⊢
    rcases hp with e | hp
    · left; rw [e]
    · right; exact ih (i + 1) p hp

/-- The values a spread copies from a representable value are representable. -/
theorem ownEnumerable_representable (data : Json) (patch : Members)
    (hd : data.representable = true) (h : ownEnumerable data = .ok patch) :
    ∀ p ∈ patch, p.2.representable = true := by
  cases data with
  | null => simp only [ownEnumerable, Except.ok.injEq] at h; subst h; simp
  | bool b => simp only [ownEnumerable, Except.ok.injEq] at h; subst h; simp
  | num n => simp only [ownEnumerable, Except.ok.injEq] at h; subst h; simp
  | str s =>
    simp only [ownEnumerable] at h
    split_ifs at h
    simp only [Except.ok.injEq] at h
    subst h
    intro p hp
    have := mem_indexedFrom _ 0 p hp
    simp only [List.mem_map] at this
    obtain ⟨c, _, hc⟩ := this
    rw [← hc]
    rfl
  | arr xs =>
    simp only [ownEnumerable, Except.ok.injEq] at h
    subst h
    intro p hp
    simp only [Json.representable, representableList_iff] at hd
    exact hd _ (mem_indexedFrom xs 0 p hp)
  | obj ms =>
    simp only [ownEnumerable, Except.ok.injEq] at h
    subst h
    exact ((representable_obj_iff ms).mp hd).2

namespace ClientDB

theorem setData_of_unknown (self : ClientDB) (d : Json) (w : Window)
    (h1 : ¬ self.type = "local") (h2 : ¬ self.type = "session") :
    self.setData d w = ⟨.normal (), w⟩ := by
  simp [setData, h1, h2]

theorem clearStorage_of_unknown (self : ClientDB) (w : Window)
    (h1 : ¬ self.type = "local") (h2 : ¬ self.type = "session") :
    self.clearStorage w = ⟨.normal (), w⟩ := by
  simp [clearStorage, h1, h2]

/-- What `insert` does under the slot invariant: the argument is spread over the stored
mapping (over nothing when the slot is absent) and the result is stored. -/
theorem insert_of_invariant (self : ClientDB) (w : Window) (h : self.SlotInvariant w) :
    ∃ E : Members, (Json.obj E).representable = true ∧
      ∀ data, self.insert data w =
        match ownEnumerable data with
        | .ok patch => self.setData (.obj (copyDataProperties E patch)) w
        | .error f => ⟨.throw f, w⟩ := by
  rcases h with h | ⟨M, hM, h⟩
  · refine ⟨[], by decide, ?_⟩
    intro data
    unfold insert getDb
    rw [getStoredData_of_absent self w h]
    simp only [ownEnumerable]
    cases ownEnumerable data <;> rfl
  · refine ⟨M, hM, ?_⟩
    intro data
    have hget := getDb_of_stored self w _ hM h
    have hcopy : copyDataProperties [] M = M := by
      have := copyDataProperties_ordered M [] (by simpa using ((representable_obj_iff M).mp hM).1)
      simpa using this
    unfold insert
    rw [hget]
    simp only [ownEnumerable, hcopy]

theorem slotInvariant_setData (self : ClientDB) (w : Window) (R : Members)
    (hR : (Json.obj R).representable = true) (h : self.SlotInvariant w) :
    self.SlotInvariant (self.setData (.obj R) w).window := by
  by_cases h1 : self.type = "local"
  · exact Or.inr ⟨R, hR, (setData_spec self _ w (Or.inl h1)).2⟩
  · by_cases h2 : self.type = "session"
    · exact Or.inr ⟨R, hR, (setData_spec self _ w (Or.inr h2)).2⟩
    · rw [setData_of_unknown self _ w h1 h2]
      exact h

theorem slotInvariant_clearStorage (self : ClientDB) (w : Window) (h : self.SlotInvariant w) :
    self.SlotInvariant (self.clearStorage w).window := by
  by_cases h1 : self.type = "local"
  · exact Or.inl (clearStorage_spec self w (Or.inl h1)).2
  · by_cases h2 : self.type = "session"
    · exact Or.inl (clearStorage_spec self w (Or.inr h2)).2
    · rw [clearStorage_of_unknown self w h1 h2]
      exact h

end ClientDB

/-- Claim C11. With the slot absent or holding the serialization of a mapping, and `P` a
mapping, both inserts complete and the storage state after `insert(P); insert(P)` is the
storage state after a single `insert(P)`. -/
theorem insert_idempotent (self : ClientDB) (w : Window) (P : Members)
    (hP : (Json.obj P).representable = true) (hslot : self.SlotInvariant w) :
    (self.insert (.obj P) w).completion = .normal () ∧
    (self.insert (.obj P) (self.insert (.obj P) w).window).completion = .normal () ∧
    (self.insert (.obj P) (self.insert (.obj P) w).window).window
      = (self.insert (.obj P) w).window := by
  have hnd := pairwise_keyBefore_nodup _ ((representable_obj_iff P).mp hP).1
  obtain ⟨E, hE, hins⟩ := ClientDB.insert_of_invariant self w hslot
  have h1 : self.insert (.obj P) w = self.setData (.obj (copyDataProperties E P)) w := by
    rw [hins]
    rfl
  have hR := representable_copyDataProperties E P hE ((representable_obj_iff P).mp hP).2
  by_cases hl : self.type = "local" ∨ self.type = "session"
  · have hst := (ClientDB.setData_spec self (.obj (copyDataProperties E P)) w hl).2
    have hget := ClientDB.getDb_of_stored self _ _ hR hst
    have h2 : self.insert (.obj P) (self.setData (.obj (copyDataProperties E P)) w).window
        = self.setData (.obj (copyDataProperties E P))
            (self.setData (.obj (copyDataProperties E P)) w).window := by
      rw [ClientDB.insert_of_getDb self _ _ P hget]
      have hcopy : copyDataProperties [] (copyDataProperties E P) = copyDataProperties E P := by
        have := copyDataProperties_ordered (copyDataProperties E P) []
          (by simpa using ((representable_obj_iff _).mp hR).1)
        simpa using this
      rw [hcopy, copyDataProperties_idem E P hnd]
    rw [h1, h2]
    exact ⟨ClientDB.setData_completion _ _ _, ClientDB.setData_completion _ _ _,
      ClientDB.setData_twice _ _ _ _⟩
  · have hn1 : ¬ self.type = "local" := fun h => hl (Or.inl h)
    have hn2 : ¬ self.type = "session" := fun h => hl (Or.inr h)
    have h3 : self.insert (.obj P) w = ⟨.normal (), w⟩ := by
      rw [h1, ClientDB.setData_of_unknown self _ w hn1 hn2]
    rw [h3]
    simp only [h3]
    exact ⟨trivial, trivial, trivial⟩

/-- Claim C11 at a concrete input: the slot holds a mapping, the patch overwrites a key and
adds one. -/
theorem insert_idempotent_witness :
    (localDb.insert (.obj [("a", .num 2), ("b", .null)]) (localWindow "\x7b\"a\":1\x7d")).completion
      = .normal () ∧
    (localDb.insert (.obj [("a", .num 2), ("b", .null)])
      (localDb.insert (.obj [("a", .num 2), ("b", .null)])
        (localWindow "\x7b\"a\":1\x7d")).window).completion = .normal () ∧
    (localDb.insert (.obj [("a", .num 2), ("b", .null)])
      (localDb.insert (.obj [("a", .num 2), ("b", .null)])
        (localWindow "\x7b\"a\":1\x7d")).window).window
      = (localDb.insert (.obj [("a", .num 2), ("b", .null)]) (localWindow "\x7b\"a\":1\x7d")).window :=
  insert_idempotent localDb (localWindow "\x7b\"a\":1\x7d") [("a", .num 2), ("b", .null)]
    (by decide) (Or.inr ⟨[("a", .num 1)], by decide, by decide⟩)

/-- Inside the model a spread always yields a property list. -/
theorem ownEnumerable_of_spreadInModel (data : Json) (h : data.spreadInModel = true) :
    ∃ patch, ownEnumerable data = .ok patch := by
  cases data with
  | str s =>
    simp only [Json.spreadInModel] at h
    simp only [ownEnumerable, h, if_true]
    exact ⟨_, rfl⟩
  | null => exact ⟨_, rfl⟩
  | bool b => exact ⟨_, rfl⟩
  | num n => exact ⟨_, rfl⟩
  | arr xs => exact ⟨_, rfl⟩
  | obj ms => exact ⟨_, rfl⟩

/-- Claim C14. From a storage state in which the slot is absent or holds the serialization
of a mapping object, the constructor, `getDb`, `query`, `insert` and `delete` each leave
the slot absent or holding the serialization of a mapping object. For `insert` the
argument is any representable value whose spread is inside the model (every mapping, array
and primitive, every string without characters beyond the basic plane), and the insert
completes and writes. In such a state the slot never decodes to an array, a primitive or a
fault. -/
theorem slot_invariant_preserved (self : ClientDB) (w : Window) (hinv : self.SlotInvariant w) :
    self.SlotInvariant (ClientDB.constructor self.dbName self.type w).window ∧
    self.SlotInvariant (self.getDb w).window ∧
    (∀ k, self.SlotInvariant (self.query k w).window) ∧
    (∀ data : Json, data.representable = true → data.spreadInModel = true →
      (self.insert data w).completion = .normal () ∧
      self.SlotInvariant (self.insert data w).window) ∧
    self.SlotInvariant (self.delete w).window ∧
    ((self.getDb w).completion = .normal .null ∨
      ∃ M, (self.getDb w).completion = .normal (.obj M)) := by
  refine ⟨?_, ?_, ?_, ?_, ClientDB.slotInvariant_clearStorage self w hinv, ?_⟩
  · rcases ClientDB.constructor_window self.dbName self.type w with h | h
    · rw [h]; exact hinv
    · rw [h]; exact ClientDB.slotInvariant_setData self w [] (by decide) hinv
  · rw [ClientDB.getDb, ClientDB.getStoredData_window self w]; exact hinv
  · intro k
    rw [ClientDB.query_window self k w]; exact hinv
  · intro data hd hs
    obtain ⟨E, hE, hins⟩ := ClientDB.insert_of_invariant self w hinv
    obtain ⟨patch, hpatch⟩ := ownEnumerable_of_spreadInModel data hs
    have hset : self.insert data w = self.setData (.obj (copyDataProperties E patch)) w := by
      rw [hins data, hpatch]
    rw [hset]
    exact ⟨ClientDB.setData_completion self _ w,
      ClientDB.slotInvariant_setData self w _
        (representable_copyDataProperties E patch hE
          (ownEnumerable_representable data patch hd hpatch)) hinv⟩
  · rcases hinv with h | ⟨M, hM, h⟩
    · left
      unfold ClientDB.getDb
      rw [ClientDB.getStoredData_of_absent self w h]
    · right
      exact ⟨M, by rw [ClientDB.getDb_of_stored self w _ hM h]⟩

/-- Claim C14 at a concrete input: the slot holds a mapping with one key. -/
theorem slot_invariant_preserved_witness :
    localDb.SlotInvariant
      (ClientDB.constructor localDb.dbName localDb.type (localWindow "\x7b\"a\":1\x7d")).window ∧
    localDb.SlotInvariant (localDb.getDb (localWindow "\x7b\"a\":1\x7d")).window ∧
    (∀ k, localDb.SlotInvariant (localDb.query k (localWindow "\x7b\"a\":1\x7d")).window) ∧
    (∀ data : Json, data.representable = true → data.spreadInModel = true →
      (localDb.insert data (localWindow "\x7b\"a\":1\x7d")).completion = .normal () ∧
      localDb.SlotInvariant (localDb.insert data (localWindow "\x7b\"a\":1\x7d")).window) ∧
    localDb.SlotInvariant (localDb.delete (localWindow "\x7b\"a\":1\x7d")).window ∧
    ((localDb.getDb (localWindow "\x7b\"a\":1\x7d")).completion = .normal .null ∨
      ∃ M, (localDb.getDb (localWindow "\x7b\"a\":1\x7d")).completion = .normal (.obj M)) :=
  slot_invariant_preserved localDb (localWindow "\x7b\"a\":1\x7d")
    (Or.inr ⟨[("a", .num 1)], by decide, by decide⟩)

/-- With an unrecognised type, the constructor, `insert` and `delete` leave both storage
areas as they were, and `delete` completes without error. -/
theorem unknown_type_storage_unchanged (self : ClientDB) (w : Window)
    (h1 : ¬ self.type = "local") (h2 : ¬ self.type = "session") :
    (ClientDB.constructor self.dbName self.type w).window = w ∧
    (∀ data, (self.insert data w).window = w) ∧
    self.delete w = ⟨.normal (), w⟩ := by
  refine ⟨?_, ?_, ClientDB.clearStorage_of_unknown self w h1 h2⟩
  · rcases ClientDB.constructor_window self.dbName self.type w with h | h
    · exact h
    · rw [h, ClientDB.setData_of_unknown _ _ w h1 h2]
  · intro data
    rcases ClientDB.insert_window self data w with h | ⟨d, h⟩
    · exact h
    · rw [h, ClientDB.setData_of_unknown _ _ w h1 h2]

/-- Claim C15 (the code departs from it). With an unrecognised type the constructor and
`insert` still read the session-storage entry under the name; when that entry holds
malformed text both throw the `SyntaxError` of `JSON.parse`. -/
theorem unknown_type_write_throws :
    (ClientDB.constructor "db" "indexeddb" (sessionWindow "\x7b")).completion
      = .throw .syntaxError ∧
    (unknownDb.insert (.obj [("a", .num 1)]) (sessionWindow "\x7b")).completion
      = .throw .syntaxError := by
  constructor <;> rfl

/-- Claim C16 (the code departs from it). With an unrecognised type `getDb()` returns the
mapping that session storage holds under the name, and `query` reads from it. -/
theorem unknown_type_reads_session :
    (unknownDb.getDb (sessionWindow "\x7b\"a\":1\x7d")).completion
      = .normal (.obj [("a", .num 1)]) ∧
    (unknownDb.query "a" (sessionWindow "\x7b\"a\":1\x7d")).completion
      = .normal (.value (.num 1)) := by
  constructor <;> rfl

/-- Claim C18 (the code departs from it). The local entry holds the text `0`, which decodes
without fault, so the storage area has an entry under the name; yet `isDatabaseExists()`
returns `false`, and the constructor overwrites the entry with the empty object. -/
theorem isDatabaseExists_false_on_falsy_entry :
    localDb.storedText (localWindow "0") = some "0" ∧
    JSON.parse "0" = .normal (.num 0) ∧
    (localDb.isDatabaseExists (localWindow "0")).completion = .normal false ∧
    (ClientDB.constructor "db" "local" (localWindow "0")).window.localStorage "db"
      = some "\x7b\x7d" := by
  refine ⟨by decide, by rfl, by rfl, by decide⟩

/-- What `isDatabaseExists` computes: the truthiness of the decoded value, `false` with no
entry, `true` with a stored mapping. -/
theorem isDatabaseExists_truthy (self : ClientDB) (w : Window) (text : String) (v : Json)
    (hslot : self.storedText w = some text) (hparse : JSON.parse text = .normal v) :
    self.isDatabaseExists w = ⟨.normal v.truthy, w⟩ ∧
    (∀ w', self.storedText w' = none → self.isDatabaseExists w' = ⟨.normal false, w'⟩) ∧
    (∀ w' M, (Json.obj M).representable = true →
      self.storedText w' = some (JSON.stringify (.obj M)) →
      self.isDatabaseExists w' = ⟨.normal true, w'⟩) := by
  refine ⟨?_, ?_, ?_⟩
  · have hne : text ≠ "" := by
      intro e
      rw [e, parse_empty] at hparse
      cases hparse
    unfold ClientDB.isDatabaseExists
    rw [ClientDB.getStoredData_of_text self w text hslot hne, hparse]
  · intro w' h
    unfold ClientDB.isDatabaseExists
    rw [ClientDB.getStoredData_of_absent self w' h]
    rfl
  · intro w' M hM h
    have := ClientDB.getDb_of_stored self w' _ hM h
    unfold ClientDB.getDb at this
    unfold ClientDB.isDatabaseExists
    rw [this]
    rfl

/-- Claim C17 at a concrete input: a local instance, with a session entry under the same
name and another local key; an insert and a delete leave both as they were. -/
theorem writes_keep_frame_witness :
    (localDb.insert (.obj [("a", .num 1)]) mixedWindow).window.sessionStorage
      = mixedWindow.sessionStorage ∧
    (localDb.insert (.obj [("a", .num 1)]) mixedWindow).window.localStorage "other"
      = mixedWindow.localStorage "other" ∧
    (localDb.delete mixedWindow).window.sessionStorage = mixedWindow.sessionStorage ∧
    (localDb.delete mixedWindow).window.localStorage "other" = mixedWindow.localStorage "other" :=
  have h := writes_keep_frame localDb (.obj [("a", .num 1)]) mixedWindow
  ⟨(h.2.1.1 rfl).1, (h.2.1.1 rfl).2 "other" (by decide),
    (h.2.2.1 rfl).1, (h.2.2.1 rfl).2 "other" (by decide)⟩

end ClientDBSpec
